import Mathlib

/-!
Verification of the MySha library (SHA-256 and ECDSA over short-Weierstrass
curves) against its specification.  The Rust sources are embedded shallowly:

* bit strings (Rust `String`s of the characters 0 and 1) become `List Bool`
  with `true` for 1;
* `u32` words become `Nat` with explicit reduction modulo `2 ^ 32`;
* `BigUint` becomes `Nat`, `BigInt` becomes `Int` (Rust `%` and `/` on
  `BigInt` truncate towards zero, so they are modelled by `Int.tmod` and
  `Int.tdiv`);
* fallible operations return `Except`;
* loops whose termination is by a decreasing measure are written with an
  explicit fuel argument (always large enough, as proved or evaluated), so
  that every definition reduces inside the kernel.
-/

set_option maxRecDepth 100000
set_option maxHeartbeats 10000000

deriving instance DecidableEq for Except

namespace MySha

/-! ## Embedding of src/sha256/helper_functions.rs -/

/-- Binary digits of a natural number, most significant bit first, with no
leading zeros (so the empty list for 0); `fuel`-based rendering of Rust
`format("b", n)` which is total because `fuel ≥ n` suffices. -/
def natBitsAux (fuel n : Nat) : List Bool :=
  match fuel with
  | 0 => []
  | fuel + 1 => if n = 0 then [] else natBitsAux fuel (n / 2) ++ [n % 2 == 1]

/-- Binary digits of `n`, most significant bit first; empty for `n = 0`. -/
def natBits (n : Nat) : List Bool := natBitsAux n n

/-- Rust `format("b", n)`: minimal binary digits, except that 0 renders as
the single digit 0. -/
def rustBin (n : Nat) : List Bool := if n = 0 then [false] else natBits n

/-- Rust `format("0wb", n)`: binary digits of `n` zero-padded on the left to a
minimum width of `w`. -/
def natBitsFixed (w n : Nat) : List Bool :=
  List.replicate (w - (natBits n).length) false ++ natBits n

/-- Value of a binary digit list, most significant bit first
(Rust `u32::from_str_radix(s, 2)`). -/
def bitsToNat (l : List Bool) : Nat :=
  l.foldl (fun acc b => 2 * acc + (if b then 1 else 0)) 0

/-- UTF-8 encoding of a character, as in Rust `String::into_bytes`. -/
def utf8Bytes (c : Char) : List Nat :=
  let n := c.toNat
  if n < 0x80 then [n]
  else if n < 0x800 then [0xC0 + n / 64, 0x80 + n % 64]
  else if n < 0x10000 then [0xE0 + n / 4096, 0x80 + n / 64 % 64, 0x80 + n % 64]
  else [0xF0 + n / 262144, 0x80 + n / 4096 % 64, 0x80 + n / 64 % 64, 0x80 + n % 64]

/-- Embedding of `binary_handling::get_binary_message`: the UTF-8 bytes of the
message, each rendered as 8 bits, most significant first. -/
def get_binary_message (message : String) : List Bool :=
  (message.data.flatMap utf8Bytes).flatMap (natBitsFixed 8)

/-- The error type of the sha256 module (`HashError` in src/sha256/mod.rs). -/
inductive HashError where
  | DecimalTooBig
  | InvalidBinary
  | InvalidHex
  | InvalidDecimal
  | ErrorWithFile
  | NotWholeBytes
  | InvalidHash
  deriving DecidableEq, Repr

/-- Embedding of `binary_handling::validate_bits`. -/
def validate_bits (message : String) : Except HashError Unit :=
  if message.data.all (fun c => c == '0' || c == '1') then Except.ok ()
  else Except.error HashError.InvalidBinary

/-- Value of a hexadecimal digit, as accepted by Rust
`u8::from_str_radix(c, 16)`; `none` for characters that are not hex digits. -/
def hexDigit (c : Char) : Option Nat :=
  if '0' ≤ c ∧ c ≤ '9' then some (c.toNat - 48)
  else if 'a' ≤ c ∧ c ≤ 'f' then some (c.toNat - 87)
  else if 'A' ≤ c ∧ c ≤ 'F' then some (c.toNat - 55)
  else none

/-- Embedding of `binary_handling::get_bits_hex`: each hex digit becomes 4
bits; in little-endian mode the (2-digit) bytes are reversed first. -/
def get_bits_hex (message : String) (le : Bool) : Except HashError (List Bool) := do
  let chars ←
    if le then
      if message.length % 2 ≠ 0 then Except.error HashError.NotWholeBytes
      else
        Except.ok (((message.data.toChunks 2).reverse).flatten)
    else Except.ok message.data
  chars.foldlM (fun bits c =>
    match hexDigit c with
    | some d => Except.ok (bits ++ natBitsFixed 4 d)
    | none => Except.error HashError.InvalidHex) []

/-- Number of zero bits the padding loop of `binary_handling::pad` appends to a
bit string of length `len`: it appends one 0 at a time while
`(len + 64) % 512 ≠ 0`.  At most 512 steps are ever needed. -/
def padZerosAux (fuel len : Nat) : Nat :=
  match fuel with
  | 0 => 0
  | fuel + 1 => if (len + 64) % 512 = 0 then 0 else padZerosAux fuel (len + 1) + 1

/-- Zero count of the padding loop, with enough fuel for every input. -/
def padZeros (len : Nat) : Nat := padZerosAux 512 len

/-- Embedding of `binary_handling::pad`: append a 1 bit, then 0 bits until the
length (plus the 64 bits to come) is a multiple of 512, then the original
length as 64 binary digits (zero-padded, most significant first). -/
def pad (message : List Bool) : List Bool :=
  let size := message.length
  message ++ [true] ++ List.replicate (padZeros (size + 1)) false ++ natBitsFixed 64 size

/-- Chunks of `w` consecutive elements of `l` (used with `l.length` a multiple
of `w`), as produced by the indexing loops of `get_message_blocks` and
`get_message_schedule`. -/
def chunksAux (fuel : Nat) (w : Nat) (l : List Bool) : List (List Bool) :=
  match fuel with
  | 0 => []
  | fuel + 1 =>
    if l.isEmpty then [] else l.take w :: chunksAux fuel w (l.drop w)

/-- Embedding of `binary_handling::get_message_blocks`: split into 512-bit
blocks. -/
def get_message_blocks (message : List Bool) : List (List Bool) :=
  chunksAux message.length 512 message

/-- Embedding of `binary_handling::get_message_schedule`: split a 512-bit block
into 16 big-endian 32-bit words. -/
def get_message_schedule (block : List Bool) : List Nat :=
  (chunksAux block.length 32 block).map bitsToNat

/-! Embedding of the `operations` module. -/

/-- Embedding of `operations::add`: 32-bit wrapping addition. -/
def add (a b : Nat) : Nat := (a + b) % 2 ^ 32

/-- Embedding of `operations::addn`: left-folded 32-bit wrapping sum. -/
def addn (nums : List Nat) : Nat := nums.foldl add 0

/-- Embedding of `u32::rotate_right` for words below `2 ^ 32`. -/
def rotr (x n : Nat) : Nat := (x >>> n) ||| ((x <<< (32 - n)) % 2 ^ 32)

/-- Embedding of `operations::l_sigma0`. -/
def l_sigma0 (bits : Nat) : Nat := rotr bits 7 ^^^ rotr bits 18 ^^^ (bits >>> 3)

/-- Embedding of `operations::l_sigma1`. -/
def l_sigma1 (bits : Nat) : Nat := rotr bits 17 ^^^ rotr bits 19 ^^^ (bits >>> 10)

/-- Embedding of `operations::u_sigma0`. -/
def u_sigma0 (bits : Nat) : Nat := rotr bits 2 ^^^ rotr bits 13 ^^^ rotr bits 22

/-- Embedding of `operations::u_sigma1`. -/
def u_sigma1 (bits : Nat) : Nat := rotr bits 6 ^^^ rotr bits 11 ^^^ rotr bits 25

/-- Embedding of `operations::choice`: bit `i` of the result is bit `i` of `b`
when bit `i` of `a` is 1, else bit `i` of `c` (computed in the source on the
32-character binary renderings). -/
def choice (a b c : Nat) : Nat :=
  bitsToNat (List.zipWith (fun ab ic => if ab.1 then ab.2 else ic)
    ((natBitsFixed 32 a).zip (natBitsFixed 32 b)) (natBitsFixed 32 c))

/-- Embedding of `operations::majority`: bit `i` of the result is bit `i` of
`a` when bits `i` of `a` and `b` agree, else bit `i` of `c`. -/
def majority (a b c : Nat) : Nat :=
  bitsToNat (List.zipWith (fun ab ic => if ab.1 == ab.2 then ab.1 else ic)
    ((natBitsFixed 32 a).zip (natBitsFixed 32 b)) (natBitsFixed 32 c))

/-! Embedding of the `constants` module. -/

/-- Loop of `constants::get_primes`: starting from the list `[2]` and candidate
`i = 3`, repeatedly append `i` when no previously found prime divides it,
until `n` primes are collected (the source does this trial division in `f64`
arithmetic, which is exact at these magnitudes). -/
def getPrimesAux (fuel : Nat) (primes : List Nat) (i n : Nat) : List Nat :=
  match fuel with
  | 0 => primes
  | fuel + 1 =>
    if primes.length < n then
      getPrimesAux fuel
        (if primes.all (fun j => i % j != 0) then primes ++ [i] else primes) (i + 1) n
    else primes

/-- Embedding of `constants::get_primes`: the first `n` primes (always
starting from the seeded 2, as in the source).  The fuel `n * n + 2` lets the
candidate counter reach past the `n`-th prime for every `n ≤ 255` (`n` is a
`u8` in the source). -/
def get_primes (n : Nat) : List Nat := getPrimesAux (n * n + 2) [2] 3 n

/-- Integer square root departing from a fuelled halving recursion, used to
model the `f64` square roots of `constants::initialize_a` exactly:
`isqrt n` is the floor of the real square root of `n`. -/
def isqrtAux (fuel n : Nat) : Nat :=
  match fuel with
  | 0 => 0
  | fuel + 1 =>
    if n = 0 then 0
    else
      let r := 2 * isqrtAux fuel (n / 4)
      if (r + 1) * (r + 1) ≤ n then r + 1 else r

/-- Integer square root: the floor of the real square root. -/
def isqrt (n : Nat) : Nat := isqrtAux n n

/-- Integer cube root, used to model the `f64` cube roots of
`constants::initialize_k` exactly: `icbrt n` is the floor of the real cube
root of `n`. -/
def icbrtAux (fuel n : Nat) : Nat :=
  match fuel with
  | 0 => 0
  | fuel + 1 =>
    if n = 0 then 0
    else
      let r := 2 * icbrtAux fuel (n / 8)
      if (r + 1) * (r + 1) * (r + 1) ≤ n then r + 1 else r

/-- Integer cube root: the floor of the real cube root. -/
def icbrt (n : Nat) : Nat := icbrtAux n n

/-- Embedding of `constants::initialize_a` (named `init_a` here): for each of
the first 8 primes `p`, the fractional part of `√p` scaled by `2 ^ 32` and
truncated.  The source computes `((p.sqrt() - p.sqrt().trunc()) * 2^32) as
u32` in `f64`; this is modelled by the exact integer value
`⌊√p · 2^32⌋ mod 2^32 = isqrt (p * 2^64) % 2^32`. -/
def init_a : List Nat :=
  (get_primes 8).map (fun p => isqrt (p * 2 ^ 64) % 2 ^ 32)

/-- Embedding of `constants::initialize_k` (named `init_k` here): for each of
the first 64 primes `p`, the fractional part of `∛p` scaled by `2 ^ 32` and
truncated, modelled exactly as `⌊∛p · 2^32⌋ mod 2^32 = icbrt (p * 2^96) %
2^32`. -/
def init_k : List Nat :=
  (get_primes 64).map (fun p => icbrt (p * 2 ^ 96) % 2 ^ 32)

/-! ## Embedding of src/sha256/mod.rs -/

/-- Embedding of `InputType`.  The source has a seventh variant `File`, which
reads the named file and hashes its bytes as text; file input/output is
outside this embedding, so that variant is omitted. -/
inductive InputType where
  | Text
  | Binary
  | LeBinary
  | Hex
  | LeHex
  | Decimal
  deriving DecidableEq, Repr

/-- Embedding of `Hash256`: the hex digest string. -/
structure Hash256 where
  hex : String
  deriving DecidableEq, Repr

/-- Value of a hex digit character, for parsing a digest (digests produced by
`sha256` contain only lowercase hex digits, so the junk value 0 for other
characters is never exercised). -/
def hexVal (c : Char) : Nat := (hexDigit c).getD 0

/-- Embedding of `BigInt::from(&Hash256)` (and `BigUint::from`): the digest
interpreted as a base-16 integer. -/
def hashToNat (h : Hash256) : Nat := h.hex.data.foldl (fun a c => 16 * a + hexVal c) 0

/-- Embedding of Rust `str::parse::<i128>` as used by the `Decimal` input
branch: an optional sign then decimal digits; positive overflow is reported
distinctly (the source maps it to `DecimalTooBig` and every other parse error
to `InvalidDecimal`). -/
def parse_i128 (s : String) : Except HashError Int :=
  let (sign, digits) :=
    match s.data with
    | '+' :: rest => ((1 : Int), rest)
    | '-' :: rest => ((-1 : Int), rest)
    | l => ((1 : Int), l)
  if digits.isEmpty || !digits.all Char.isDigit then Except.error HashError.InvalidDecimal
  else
    let v : Int := sign * (digits.foldl (fun a c => a * 10 + (c.toNat - 48)) (0 : Nat) : Nat)
    if v > 2 ^ 127 - 1 then Except.error HashError.DecimalTooBig
    else if v < -(2 ^ 127) then Except.error HashError.InvalidDecimal
    else Except.ok v

/-- Bit string hashed by the `Decimal` branch: Rust `format("b", v)` of an
`i128`, which for a negative value prints all 128 bits of the two's-complement
representation. -/
def decimalBits (v : Int) : List Bool :=
  if v < 0 then rustBin (v + 2 ^ 128).toNat else rustBin v.toNat

/-- Input classification step of `sha256`: the match on `input_type` producing
the bit string to be hashed. -/
def inputBits (message : String) (input_type : InputType) : Except HashError (List Bool) :=
  match input_type with
  | InputType.Binary => do
    validate_bits message
    Except.ok (message.data.map (fun c => c == '1'))
  | InputType.LeBinary => do
    validate_bits message
    if message.length % 8 ≠ 0 then Except.error HashError.NotWholeBytes
    else
      Except.ok ((((message.data.map (fun c => c == '1')).toChunks 8).reverse).flatten)
  | InputType.Text => Except.ok (get_binary_message message)
  | InputType.Hex => get_bits_hex message false
  | InputType.LeHex => get_bits_hex message true
  | InputType.Decimal => do
    let v ← parse_i128 message
    Except.ok (decimalBits v)

/-- One round of the compression loop of `sha256` (the body of
`for (i, m) in message_schedule.iter().enumerate()`), on the working state
`(a, b, c, d, e, f, g, h)` with the current schedule word `m` and round
constant `kv`. -/
def compressRound (st : Nat × Nat × Nat × Nat × Nat × Nat × Nat × Nat) (mk : Nat × Nat) :
    Nat × Nat × Nat × Nat × Nat × Nat × Nat × Nat :=
  let (a, b, c, d, e, f, g, h) := st
  let (m, kv) := mk
  let t1 := addn [u_sigma1 e, choice e f g, h, kv, m]
  let t2 := add (u_sigma0 a) (majority a b c)
  (add t1 t2, a, b, c, add d t1, e, f, g)

/-- Message-schedule extension step: push
`σ1(w[i-2]) + w[i-7] + σ0(w[i-15]) + w[i-16]` (the body of
`for i in 16..64`). -/
def scheduleStep (ws : List Nat) : List Nat :=
  ws ++ [addn [l_sigma1 (ws.getD (ws.length - 2) 0), ws.getD (ws.length - 7) 0,
    l_sigma0 (ws.getD (ws.length - 15) 0), ws.getD (ws.length - 16) 0]]

/-- Repeated schedule extension (`for i in 16..64` runs 48 times). -/
def extendSchedule : Nat → List Nat → List Nat
  | 0, ws => ws
  | n + 1, ws => extendSchedule n (scheduleStep ws)

/-- Body of the block loop of `sha256`: expand the schedule of one 512-bit
block, run 64 compression rounds from the persistent state, and accumulate the
result into the persistent state (all additions wrapping mod `2 ^ 32`). -/
def processBlock (k : List Nat) (st : Nat × Nat × Nat × Nat × Nat × Nat × Nat × Nat)
    (block : List Bool) : Nat × Nat × Nat × Nat × Nat × Nat × Nat × Nat :=
  let ms := extendSchedule 48 (get_message_schedule block)
  let (a0, b0, c0, d0, e0, f0, g0, h0) := st
  let (a, b, c, d, e, f, g, h) := (ms.zip k).foldl compressRound st
  (add a a0, add b b0, add c c0, add d d0, add e e0, add f f0, add g g0, add h h0)

/-- Lowercase hex digit character. -/
def hexChar (n : Nat) : Char :=
  if n < 10 then Char.ofNat (48 + n) else Char.ofNat (87 + n)

/-- Rust `format("08x", n)` for a 32-bit word: 8 lowercase hex digits. -/
def toHex8 (n : Nat) : String :=
  String.mk ((List.range 8).map (fun i => hexChar (n >>> (4 * (7 - i)) % 16)))

/-- Embedding of `sha256`: classify the input into a bit string, pad, split
into 512-bit blocks, compress each block, and emit the 64-character lowercase
hex digest. -/
def sha256 (message : String) (input_type : InputType) : Except HashError Hash256 := do
  let bits ← inputBits message input_type
  let bits := pad bits
  let message_blocks := get_message_blocks bits
  let a := init_a
  let k := init_k
  let st0 := (a.getD 0 0, a.getD 1 0, a.getD 2 0, a.getD 3 0,
    a.getD 4 0, a.getD 5 0, a.getD 6 0, a.getD 7 0)
  let (a0, b0, c0, d0, e0, f0, g0, h0) := message_blocks.foldl (processBlock k) st0
  Except.ok ⟨toHex8 a0 ++ toHex8 b0 ++ toHex8 c0 ++ toHex8 d0 ++
    toHex8 e0 ++ toHex8 f0 ++ toHex8 g0 ++ toHex8 h0⟩

/-! ## Embedding of src/ecc/ecc_math.rs -/

/-- The error type of the ecc module (`EccError`). -/
inductive EccError where
  | DivisionByZero
  | NotOnCurve
  | GeneratorOnInfinity
  | GeneratorNotOnCurve
  | SingularCurve
  | InvalidPrivateKey
  | PublicKeyOnInfinity
  | InvalidOrderN
  | NotPrime
  | InvalidSignature
  deriving DecidableEq, Repr

/-- Embedding of `get_mod`: the always-nonnegative residue `((x % p) + p) % p`
(Rust `%` on `BigInt` is the truncated remainder, i.e. `Int.tmod`), failing on
a zero modulus. -/
def get_mod (x p : Int) : Except EccError Int :=
  if p = 0 then Except.error EccError.DivisionByZero
  else Except.ok (Int.tmod (Int.tmod x p + p) p)

/-- The extended-Euclidean loop of `mod_inv` (`while a > 1`), with state
`(a, m, y, y0)` and explicit fuel; `a` strictly decreases (towards `≤ 1`) at
every step, so `a.toNat` steps of fuel always suffice. -/
def modInvLoop (fuel : Nat) (a m y y0 : Int) : Int × Int × Int × Int :=
  match fuel with
  | 0 => (a, m, y, y0)
  | fuel + 1 =>
    if 1 < a then
      modInvLoop fuel (Int.tmod m a) a (y0 - Int.tdiv m a * y) y
    else (a, m, y, y0)

/-- Embedding of `mod_inv`: extended Euclidean algorithm with a final
post-check that the candidate really is an inverse of `a0` modulo `p`
(failing with `NotPrime` otherwise). -/
def mod_inv (a0 p : Int) : Except EccError Int :=
  if a0 = 0 then Except.error EccError.DivisionByZero
  else
    (if a0 < 0 then get_mod a0 p else Except.ok a0) >>= fun a =>
    match modInvLoop a.toNat a p 1 0 with
    | (_, _, y, _) =>
      get_mod y p >>= fun result =>
      if get_mod (result * a0) p ≠ Except.ok 1 then Except.error EccError.NotPrime
      else Except.ok result

/-- Embedding of `Point`: a finite point carries its `BigUint` coordinates as
naturals. -/
inductive Point where
  | point (x y : Nat)
  | infinity
  deriving DecidableEq, Repr

/-- Embedding of `Point::get_x`. -/
def Point.get_x : Point → Option Nat
  | Point.point x _ => some x
  | Point.infinity => none

/-- Embedding of `Point::get_y`. -/
def Point.get_y : Point → Option Nat
  | Point.point _ y => some y
  | Point.infinity => none

/-- Embedding of `Point::point_neg`: negate the `y` coordinate modulo the
field prime. -/
def Point.point_neg (p : Point) (prime : Int) : Except EccError Point :=
  match p with
  | Point.point x y => do
    let m ← get_mod (-(y : Int)) prime
    Except.ok (Point.point x m.toNat)
  | Point.infinity => Except.ok Point.infinity

/-- Embedding of `Curve`: the coefficients `a`, `b` (`i32` in the source,
modelled over `ℤ`), the field prime `p`, the order `n` and the generator. -/
structure Curve where
  a : Int
  b : Int
  p : Nat
  n : Nat
  g : Point
  deriving DecidableEq, Repr

/-- Embedding of `Curve::is_on_curve`: test
`(y² - x³ - x·a - b) % p == 0` (a single truncated remainder, as in the
source). -/
def Curve.is_on_curve (c : Curve) (pt : Point) : Bool :=
  match pt with
  | Point.point x y =>
    Int.tmod ((y : Int) ^ 2 - (x : Int) ^ 3 - (x : Int) * c.a - c.b) (c.p : Int) == 0
  | Point.infinity => true

/-- Embedding of `Curve::double`. -/
def Curve.double (c : Curve) (pt : Point) : Except EccError Point :=
  if ¬ c.is_on_curve pt then Except.error EccError.NotOnCurve
  else
    match pt with
    | Point.point x y =>
      if (y : Int) = 0 then Except.ok Point.infinity
      else do
        let inv ← mod_inv (2 * (y : Int)) (c.p : Int)
        let slope ← get_mod (((x : Int) ^ 2 * 3 + c.a) * inv) (c.p : Int)
        let x1 ← get_mod (slope ^ 2 - 2 * (x : Int)) (c.p : Int)
        let y1 ← get_mod (slope * ((x : Int) - x1) - (y : Int)) (c.p : Int)
        Except.ok (Point.point x1.toNat y1.toNat)
    | Point.infinity => Except.ok Point.infinity

/-- Embedding of `Curve::add`. -/
def Curve.add (c : Curve) (p q : Point) : Except EccError Point :=
  if ¬ (c.is_on_curve p ∧ c.is_on_curve q) then Except.error EccError.NotOnCurve
  else if p = q then c.double p
  else
    match p with
    | Point.point px py =>
      match q with
      | Point.point qx qy =>
        if px = qx then Except.ok Point.infinity
        else do
          let inv ← mod_inv ((px : Int) - (qx : Int)) (c.p : Int)
          let slope ← get_mod (((py : Int) - (qy : Int)) * inv) (c.p : Int)
          let x ← get_mod (slope ^ 2 - (px : Int) - (qx : Int)) (c.p : Int)
          let y ← get_mod (slope * ((px : Int) - x) - (py : Int)) (c.p : Int)
          Except.ok (Point.point x.toNat y.toNat)
      | Point.infinity => Except.ok p
    | Point.infinity => Except.ok q

/-- Embedding of `Curve::multiply`: left-to-right double-and-add over the
binary digits of `|k|` (the Rust code renders `format("b", |k|)` and iterates
over all digits but the leading one), after replacing the point by its
negation for `k < 0`. -/
def Curve.multiply (c : Curve) (pt : Point) (k : Int) : Except EccError Point :=
  if k = 0 then Except.ok Point.infinity
  else
    (if k < 0 then pt.point_neg (c.p : Int) else Except.ok pt) >>= fun p =>
    ((rustBin k.natAbs).drop 1).foldlM (fun current i =>
      c.double current >>= fun current =>
      if i then c.add current p else Except.ok current) p

/-- Embedding of `Curve::new`: reject an infinite generator, a singular curve
and a zero order, then check `n·G = ∞` and that `G` lies on the curve. -/
def Curve.new (a b : Int) (p n : Nat) (g : Point) : Except EccError Curve :=
  if g = Point.infinity then Except.error EccError.GeneratorOnInfinity
  else
    get_mod (4 * a ^ 3 + 27 * b ^ 2) (p : Int) >>= fun d =>
    if d = 0 then Except.error EccError.SingularCurve
    else if n = 0 then Except.error EccError.InvalidOrderN
    else
      Curve.multiply ⟨a, b, p, n, g⟩ (Curve.g ⟨a, b, p, n, g⟩) (n : Int) >>= fun r =>
      if r ≠ Point.infinity then Except.error EccError.InvalidOrderN
      else if ¬ Curve.is_on_curve ⟨a, b, p, n, g⟩ (Curve.g ⟨a, b, p, n, g⟩) then
        Except.error EccError.GeneratorNotOnCurve
      else Except.ok ⟨a, b, p, n, g⟩

/-- Embedding of `Curve::secp256k1`. -/
def Curve.secp256k1 : Curve where
  a := 0
  b := 7
  p := 0xFFFFFFFFFFFFFFFFFFFFFFFFFFFFFFFFFFFFFFFFFFFFFFFFFFFFFFFEFFFFFC2F
  n := 0xFFFFFFFFFFFFFFFFFFFFFFFFFFFFFFFEBAAEDCE6AF48A03BBFD25E8CD0364141
  g := Point.point
    0x79BE667EF9DCBBAC55A06295CE870B07029BFCDB2DCE28D959F2815B16F81798
    0x483ADA7726A3C4655DA4FBFC0E1108A8FD17B448A68554199C47D08FFB10D4B8

/-! ## Embedding of src/lib.rs and src/ecc/mod.rs -/

/-- Embedding of `MyshaError` from src/lib.rs. -/
inductive MyshaError where
  | Ecc (e : EccError)
  | Hash (e : HashError)
  deriving DecidableEq, Repr

/-- Embedding of `KeyPair` (the source field names `private` and `public` are
Rust keywords-adjacent and `private` is a Lean keyword, so they are shortened
to `priv` and `pub`). -/
structure KeyPair where
  priv : Nat
  pub : Point
  curve : Curve
  deriving DecidableEq, Repr

/-- Embedding of `KeyPair::new`: require `0 < private < n` and derive the
public key as `private · G`. -/
def KeyPair.new (oneKey : Nat) (curve : Curve) : Except EccError KeyPair :=
  if oneKey = 0 ∨ curve.n ≤ oneKey then Except.error EccError.InvalidPrivateKey
  else do
    let pb ← curve.multiply curve.g (oneKey : Int)
    Except.ok ⟨oneKey, pb, curve⟩

/-- Embedding of `Signature`. -/
structure Signature where
  r : Nat
  s : Nat
  curve : Curve
  pub : Point
  deriving DecidableEq, Repr

/-- Embedding of `KeyPair::sign`.  The source draws the nonce from an
OS-seeded PRNG inside the function (`rng.gen_bigint_range(1, n)`); the nonce
is taken here as an explicit parameter ranging over the same interval.  The
source unwraps the `x` coordinate of `nonce · G` (a panic on the point at
infinity); the panic is modelled as an `InvalidSignature` error, and is not
reachable for nonces in `[1, n)` on a valid curve. -/
def KeyPair.sign (kp : KeyPair) (message : String) (input_type : InputType)
    (nonce : Int) : Except MyshaError Signature := do
  let hash ← (sha256 message input_type).mapError MyshaError.Hash
  let curve := kp.curve
  let n : Int := curve.n
  let point ← (curve.multiply curve.g nonce).mapError MyshaError.Ecc
  let rx ←
    match point.get_x with
    | some x => Except.ok (x : Int)
    | none => Except.error (MyshaError.Ecc EccError.InvalidSignature)
  let r ← (get_mod rx n).mapError MyshaError.Ecc
  let ninv ← (mod_inv nonce n).mapError MyshaError.Ecc
  let s ← (get_mod (ninv * ((hashToNat hash : Int) + (kp.priv : Int) * r)) n).mapError
    MyshaError.Ecc
  Except.ok ⟨r.toNat, s.toNat, curve, kp.pub⟩

/-- Embedding of `Signature::verify`: recompute
`P₃ = (e·s⁻¹)·G + (s⁻¹·r)·Q` and compare its `x` coordinate with the stored
`r` (the source computes `mod_inv(&s, &n)` twice, once for each scalar). -/
def Signature.verify (sig : Signature) (message : String) (input_type : InputType) :
    Except MyshaError Bool := do
  let hash ← (sha256 message input_type).mapError MyshaError.Hash
  let r : Int := sig.r
  let s : Int := sig.s
  let n : Int := sig.curve.n
  let w1 ← (mod_inv s n).mapError MyshaError.Ecc
  let point1 ← (sig.curve.multiply sig.curve.g ((hashToNat hash : Int) * w1)).mapError
    MyshaError.Ecc
  let w2 ← (mod_inv s n).mapError MyshaError.Ecc
  let point2 ← (sig.curve.multiply sig.pub (w2 * r)).mapError MyshaError.Ecc
  let point3 ← (sig.curve.add point1 point2).mapError MyshaError.Ecc
  Except.ok (point3.get_x == some sig.r)

/-! ## The NIST FIPS 180-4 SHA-256 constant tables (literal values from the
standard, for comparison with the derived constants). -/

/-- The eight initial hash values `H` of FIPS 180-4 §5.3.3, as literals
(decimal renderings of the table's hex words). -/
def fipsH : List Nat :=
  [1779033703, 3144134277, 1013904242, 2773480762,
   1359893119, 2600822924, 528734635, 1541459225]

/-- The sixty-four round constants `K` of FIPS 180-4 §4.2.2, as literals
(decimal renderings of the table's hex words). -/
def fipsK : List Nat :=
  [1116352408, 1899447441, 3049323471, 3921009573, 961987163,
   1508970993, 2453635748, 2870763221, 3624381080, 310598401,
   607225278, 1426881987, 1925078388, 2162078206, 2614888103,
   3248222580, 3835390401, 4022224774, 264347078, 604807628,
   770255983, 1249150122, 1555081692, 1996064986, 2554220882,
   2821834349, 2952996808, 3210313671, 3336571891, 3584528711,
   113926993, 338241895, 666307205, 773529912, 1294757372,
   1396182291, 1695183700, 1986661051, 2177026350, 2456956037,
   2730485921, 2820302411, 3259730800, 3345764771, 3516065817,
   3600352804, 4094571909, 275423344, 430227734, 506948616,
   659060556, 883997877, 958139571, 1322822218, 1537002063,
   1747873779, 1955562222, 2024104815, 2227730452, 2361852424,
   2428436474, 2756734187, 3204031479, 3329325298]

/-- A decidable test for the `GeneratorNotOnCurve` outcome of `Curve::new`
(used to state that this outcome never happens). -/
def isGenNotOnCurve (r : Except EccError Curve) : Bool :=
  match r with
  | Except.error EccError.GeneratorNotOnCurve => true
  | _ => false

/-- The toy curve of the specification seed vectors:
`y² = x³ + 2x + 3 (mod 97)` with order `n = 5` and generator `G = (3, 6)`. -/
def toy : Curve := ⟨2, 3, 97, 5, Point.point 3 6⟩

/-- A key pair on the toy curve with private key 1 (so the public key is the
generator itself). -/
def toyKp : KeyPair := ⟨1, Point.point 3 6, toy⟩

end MySha

namespace Spec2Proof

open MySha

/-- A point with coordinates already reduced into `[0, p)` (the point at
infinity counts as reduced).  All points produced by the curve operations are
of this shape. -/
def Reduced (c : Curve) : Point → Prop
  | Point.point x y => x < c.p ∧ y < c.p
  | Point.infinity => True

/-- The short Weierstrass curve `y² = x³ + a·x + b` over `ZMod c.p`
corresponding to a `Curve` of the embedding. -/
def toW (c : Curve) : WeierstrassCurve.Affine (ZMod c.p) :=
  { a₁ := 0, a₂ := 0, a₃ := 0,
    a₄ := ((c.a : Int) : ZMod c.p), a₆ := ((c.b : Int) : ZMod c.p) }

/-- Correspondence between a point of the embedding and a nonsingular rational
point of the Mathlib Weierstrass curve `toW c`. -/
inductive PtRel (c : Curve) : Point → (toW c).Point → Prop
  | inf : PtRel c Point.infinity 0
  | fin (x y : Nat) (h : (toW c).Nonsingular ((x : ZMod c.p)) ((y : ZMod c.p))) :
      PtRel c (Point.point x y) (WeierstrassCurve.Affine.Point.some h)

/-! ## Claim C5: the digests of "abc" and of the empty string -/

/-- C5.  `sha256("abc", Text)` returns the digest
`ba7816bf8f01cfea414140de5dae2223b00361a396177a9cb410ff61f20015ad`, and
`sha256("", Text)` (the empty input, which is valid) returns
`e3b0c44298fc1c149afbf4c8996fb92427ae41e4649b934ca495991b7852b855`. -/
theorem C5_sha256_abc_and_empty :
    sha256 "abc" InputType.Text =
      Except.ok ⟨"ba7816bf8f01cfea414140de5dae2223b00361a396177a9cb410ff61f20015ad"⟩ ∧
    sha256 "" InputType.Text =
      Except.ok ⟨"e3b0c44298fc1c149afbf4c8996fb92427ae41e4649b934ca495991b7852b855"⟩ := by
  constructor
  · decide
  · decide

/-! ## Claim C7: the derived constants match the FIPS 180-4 tables -/

/-- C7.  The 8 initial state words produced by `initialize_a` (fractional
parts of square roots of the first 8 primes, scaled by `2³²`) and the 64 round
constants produced by `initialize_k` (fractional parts of cube roots of the
first 64 primes, scaled by `2³²`) equal the NIST FIPS 180-4 SHA-256 constant
tables bit-exactly, word for word.  (The source computes the roots in `f64`
arithmetic; the derivation is modelled by exact integer roots.) -/
theorem C7_constants_match_fips : init_a = fipsH ∧ init_k = fipsK := by
  constructor
  · decide
  · decide

/-! ## Generic helpers for computations in the `Except` monad -/

theorem ok_bind {ε α β : Type} (a : α) (f : α → Except ε β) :
    (Except.ok a >>= f) = f a := rfl

theorem error_bind {ε α β : Type} (e : ε) (f : α → Except ε β) :
    ((Except.error e : Except ε α) >>= f) = Except.error e := rfl

theorem bind_eq_error {ε α β : Type} {ma : Except ε α} {f : α → Except ε β} {e : ε}
    (h : (ma >>= f) = Except.error e) :
    ma = Except.error e ∨ ∃ a, ma = Except.ok a ∧ f a = Except.error e := by
  cases ma with
  | error e0 =>
    left
    cases h
    rfl
  | ok a => exact Or.inr ⟨a, rfl, h⟩

theorem bind_eq_ok {ε α β : Type} {ma : Except ε α} {f : α → Except ε β} {b : β}
    (h : (ma >>= f) = Except.ok b) : ∃ a, ma = Except.ok a ∧ f a = Except.ok b := by
  cases ma with
  | error e0 => cases h
  | ok a => exact ⟨a, rfl, h⟩

theorem mapError_eq_ok {ε ε2 α : Type} {ma : Except ε α} {g : ε → ε2} {a : α} :
    ma.mapError g = Except.ok a ↔ ma = Except.ok a := by
  cases ma <;> simp [Except.mapError]

theorem mapError_eq_error {ε ε2 α : Type} {ma : Except ε α} {g : ε → ε2} {e2 : ε2}
    (h : ma.mapError g = Except.error e2) : ∃ e, ma = Except.error e ∧ g e = e2 := by
  cases ma with
  | error e =>
    refine ⟨e, rfl, ?_⟩
    simpa [Except.mapError] using h
  | ok a => simp [Except.mapError] at h

/-! ## Basic facts about the binary-digit function `natBits` -/

theorem natBitsAux_congr : ∀ f1 : Nat, ∀ f2 n : Nat, n ≤ f1 → n ≤ f2 →
    natBitsAux f1 n = natBitsAux f2 n := by
  intro f1
  induction f1 using Nat.strong_induction_on with
  | _ f1 ih =>
    intro f2 n h1 h2
    match f1, f2 with
    | 0, f2 =>
      interval_cases n
      cases f2 <;> rfl
    | f1 + 1, 0 =>
      interval_cases n
      rfl
    | f1 + 1, f2 + 1 =>
      by_cases hn : n = 0
      · subst hn; rfl
      · have hlt : n / 2 < n := Nat.div_lt_self (Nat.pos_of_ne_zero hn) (by decide)
        have e1 : natBitsAux (f1 + 1) n = natBitsAux f1 (n / 2) ++ [n % 2 == 1] := by
          simp [natBitsAux, hn]
        have e2 : natBitsAux (f2 + 1) n = natBitsAux f2 (n / 2) ++ [n % 2 == 1] := by
          simp [natBitsAux, hn]
        rw [e1, e2, ih f1 (Nat.lt_succ_self f1) f2 (n / 2) (by omega) (by omega)]

/-- The one-step unfolding of `natBits` at a nonzero argument. -/
theorem natBits_succ {n : Nat} (hn : n ≠ 0) :
    natBits n = natBits (n / 2) ++ [n % 2 == 1] := by
  have hlt : n / 2 < n := Nat.div_lt_self (Nat.pos_of_ne_zero hn) (by decide)
  have : natBits n = natBitsAux n n := rfl
  rw [this]
  cases n with
  | zero => exact absurd rfl hn
  | succ m =>
    show natBitsAux (m + 1) (m + 1) = _
    simp only [natBitsAux, hn, if_false]
    rw [natBitsAux_congr m ((m + 1) / 2) ((m + 1) / 2) (by omega) (le_refl _)]
    rfl

theorem natBits_zero : natBits 0 = [] := rfl

theorem natBits_one : natBits 1 = [true] := rfl

theorem natBits_length_pos {n : Nat} (hn : n ≠ 0) : 0 < (natBits n).length := by
  rw [natBits_succ hn]
  simp

theorem natBits_length_two {n : Nat} (hn : 2 ≤ n) : 2 ≤ (natBits n).length := by
  rw [natBits_succ (by omega)]
  have : 0 < (natBits (n / 2)).length := natBits_length_pos (by omega)
  simp
  omega

/-! ## Claim C10: `Curve::new` never reports `GeneratorNotOnCurve` -/

theorem get_mod_error {x p : Int} {e : EccError} (h : get_mod x p = Except.error e) :
    e = EccError.DivisionByZero := by
  unfold get_mod at h
  split at h
  · cases h; rfl
  · cases h

theorem mod_inv_error {a p : Int} {e : EccError} (h : mod_inv a p = Except.error e) :
    e = EccError.DivisionByZero ∨ e = EccError.NotPrime := by
  unfold mod_inv at h
  split at h
  · cases h
    left
    rfl
  · rcases bind_eq_error h with h1 | ⟨a1, _, h1⟩
    · split at h1
      · exact Or.inl (get_mod_error h1)
      · cases h1
    · rcases hl : modInvLoop a1.toNat a1 p 1 0 with ⟨a2, m2, y2, y02⟩
      rw [hl] at h1
      rcases bind_eq_error h1 with h2 | ⟨r, _, h2⟩
      · exact Or.inl (get_mod_error h2)
      · split at h2
        · cases h2
          right
          rfl
        · cases h2

theorem point_neg_error {pt : Point} {prime : Int} {e : EccError}
    (h : pt.point_neg prime = Except.error e) : e = EccError.DivisionByZero := by
  cases pt with
  | point x y =>
    unfold Point.point_neg at h
    rcases bind_eq_error h with h1 | ⟨m, _, h1⟩
    · exact get_mod_error h1
    · cases h1
  | infinity => cases h

/-- The errors that `double` can produce. -/
def benign (e : EccError) : Prop :=
  e = EccError.NotOnCurve ∨ e = EccError.DivisionByZero ∨ e = EccError.NotPrime

theorem double_error {c : Curve} {pt : Point} {e : EccError}
    (h : c.double pt = Except.error e) : benign e := by
  unfold Curve.double at h
  split at h
  · cases h
    left
    rfl
  · split at h
    · split at h
      · cases h
      · rcases bind_eq_error h with h1 | ⟨i, _, h1⟩
        · rcases mod_inv_error h1 with h2 | h2 <;> simp [benign, h2]
        · rcases bind_eq_error h1 with h2 | ⟨sl, _, h2⟩
          · simp [benign, get_mod_error h2]
          · rcases bind_eq_error h2 with h3 | ⟨x1, _, h3⟩
            · simp [benign, get_mod_error h3]
            · rcases bind_eq_error h3 with h4 | ⟨y1, _, h4⟩
              · simp [benign, get_mod_error h4]
              · cases h4
    · cases h

theorem add_error {c : Curve} {p q : Point} {e : EccError}
    (h : c.add p q = Except.error e) : benign e := by
  unfold Curve.add at h
  split at h
  · cases h
    left
    rfl
  · split at h
    · exact double_error h
    · split at h
      · split at h
        · split at h
          · cases h
          · rcases bind_eq_error h with h1 | ⟨i, _, h1⟩
            · rcases mod_inv_error h1 with h2 | h2 <;> simp [benign, h2]
            · rcases bind_eq_error h1 with h2 | ⟨sl, _, h2⟩
              · simp [benign, get_mod_error h2]
              · rcases bind_eq_error h2 with h3 | ⟨x1, _, h3⟩
                · simp [benign, get_mod_error h3]
                · rcases bind_eq_error h3 with h4 | ⟨y1, _, h4⟩
                  · simp [benign, get_mod_error h4]
                  · cases h4
        · cases h
      · cases h

theorem foldlM_double_add_error {c : Curve} {p0 : Point} {e : EccError} :
    ∀ (l : List Bool) (init : Point),
    l.foldlM (fun current i =>
      c.double current >>= fun current =>
      if i then c.add current p0 else Except.ok current) init = Except.error e →
    benign e := by
  intro l
  induction l with
  | nil =>
    intro init h
    cases h
  | cons b t ih =>
    intro init h
    rw [List.foldlM_cons] at h
    rcases bind_eq_error h with h2 | ⟨cur, _, h2⟩
    · rcases bind_eq_error h2 with h3 | ⟨cur2, _, h3⟩
      · exact double_error h3
      · split at h3
        · exact add_error h3
        · cases h3
    · exact ih cur h2

theorem multiply_error {c : Curve} {pt : Point} {k : Int} {e : EccError}
    (h : c.multiply pt k = Except.error e) : benign e := by
  unfold Curve.multiply at h
  split at h
  · cases h
  · rcases bind_eq_error h with h1 | ⟨p0, _, h1⟩
    · split at h1
      · simp [benign, point_neg_error h1]
      · cases h1
    · exact foldlM_double_add_error _ _ h1

theorem multiply_one_digit {c : Curve} {pt : Point} {n : Nat} (h1 : n = 1) :
    c.multiply pt (n : Int) = Except.ok pt := by
  subst h1
  rfl

/-- If `n ≥ 2` and `n · G` succeeds, the base point passed the on-curve check
of the first doubling. -/
theorem multiply_ok_on_curve {c : Curve} {pt r : Point} {n : Nat} (h2 : 2 ≤ n)
    (h : c.multiply pt (n : Int) = Except.ok r) : c.is_on_curve pt = true := by
  unfold Curve.multiply at h
  rw [if_neg (by omega : ¬ ((n : Int) = 0))] at h
  rcases bind_eq_ok h with ⟨p0, hp0, h1⟩
  rw [if_neg (by omega : ¬ ((n : Int) < 0))] at hp0
  injection hp0 with hp0
  subst hp0
  have hbits : rustBin (n : Int).natAbs = natBits n := by
    unfold rustBin
    rw [Int.natAbs_ofNat, if_neg (by omega)]
  rw [hbits] at h1
  rcases List.exists_cons_of_ne_nil (l := natBits n) (by
    intro hnil
    have := natBits_length_two h2
    rw [hnil] at this
    simp at this) with ⟨b0, t, ht⟩
  rcases List.exists_cons_of_ne_nil (l := t) (by
    intro hnil
    have := natBits_length_two h2
    rw [ht, hnil] at this
    simp at this) with ⟨b1, t2, ht2⟩
  rw [ht, ht2] at h1
  simp only [List.drop_one, List.tail_cons, List.foldlM_cons] at h1
  by_contra hoff
  have hdbl : c.double pt = Except.error EccError.NotOnCurve := by
    unfold Curve.double
    rw [if_pos (by simpa using hoff)]
  rw [hdbl] at h1
  cases h1

/-- C10.  `Curve::new` never returns the `GeneratorNotOnCurve` error for any
input: when the generator `G` is a finite point not on the curve, the
`n·G = ∞` check runs first and either propagates `NotOnCurve` (from the first
double when `n > 1`) or yields `InvalidOrderN` (when `n = 1`, since `multiply`
returns `G` unchecked), so the final `is_on_curve(G)` test is only ever
reached with `G` already on the curve. -/
theorem C10_new_never_generator_not_on_curve (a b : Int) (p n : Nat) (g : Point) :
    isGenNotOnCurve (Curve.new a b p n g) = false := by
  unfold Curve.new
  split
  · rfl
  · rename_i hg
    rcases hd : get_mod (4 * a ^ 3 + 27 * b ^ 2) (p : Int) with e | d
    · have he := get_mod_error hd
      subst he
      rfl
    · rw [ok_bind]
      split
      · rfl
      · split
        · rfl
        · rename_i hd0 hn0
          rcases hm : Curve.multiply ⟨a, b, p, n, g⟩ (Curve.g ⟨a, b, p, n, g⟩) (n : Int)
            with e | r
          · rcases multiply_error hm with h | h | h <;> (subst h; rfl)
          · rw [ok_bind]
            split
            · rfl
            · rename_i hr
              rw [not_not] at hr
              subst hr
              have hcurve : Curve.is_on_curve ⟨a, b, p, n, g⟩ g = true := by
                rcases Nat.lt_or_ge n 2 with hn2 | hn2
                · have hn1 : n = 1 := by omega
                  rw [multiply_one_digit hn1] at hm
                  injection hm with hm
                  exact absurd hm hg
                · exact multiply_ok_on_curve hn2 hm
              rw [if_neg (by simp [hcurve])]
              rfl

/-! ## Claim C6: the shape of the SHA-256 padding -/

theorem padZerosAux_eq : ∀ fuel len : Nat, (512 - (len + 64) % 512) % 512 ≤ fuel →
    padZerosAux fuel len = (512 - (len + 64) % 512) % 512 := by
  intro fuel
  induction fuel with
  | zero =>
    intro len h
    have h64 : (len + 64) % 512 < 512 := Nat.mod_lt _ (by omega)
    have : (len + 64) % 512 = 0 := by omega
    simp [padZerosAux, this]
  | succ fuel ih =>
    intro len h
    by_cases hr : (len + 64) % 512 = 0
    · simp [padZerosAux, hr]
    · have h64 : (len + 64) % 512 < 512 := Nat.mod_lt _ (by omega)
      have hstep : padZerosAux (fuel + 1) len = padZerosAux fuel (len + 1) + 1 := by
        simp [padZerosAux, hr]
      rw [hstep, ih (len + 1) (by omega)]
      omega

theorem padZeros_eq (len : Nat) : padZeros len = (512 - (len + 64) % 512) % 512 := by
  have h64 : (512 - (len + 64) % 512) % 512 < 512 := Nat.mod_lt _ (by omega)
  exact padZerosAux_eq 512 len (by omega)

theorem natBits_length_le : ∀ k n : Nat, n < 2 ^ k → (natBits n).length ≤ k := by
  intro k
  induction k with
  | zero =>
    intro n h
    interval_cases n
    simp [natBits_zero]
  | succ k ih =>
    intro n h
    by_cases hn : n = 0
    · simp [hn, natBits_zero]
    · rw [natBits_succ hn]
      have := ih (n / 2) (by omega)
      simp
      omega

theorem bitsToNat_append (l : List Bool) (b : Bool) :
    bitsToNat (l ++ [b]) = 2 * bitsToNat l + (if b then 1 else 0) := by
  unfold bitsToNat
  rw [List.foldl_append]
  rfl

theorem bitsToNat_natBits : ∀ n : Nat, bitsToNat (natBits n) = n := by
  intro n
  induction n using Nat.strong_induction_on with
  | _ n ih =>
    by_cases hn : n = 0
    · subst hn; rfl
    · rw [natBits_succ hn, bitsToNat_append,
        ih (n / 2) (Nat.div_lt_self (Nat.pos_of_ne_zero hn) (by decide))]
      rcases Nat.mod_two_eq_zero_or_one n with h2 | h2 <;> simp [h2] <;> omega

theorem bitsToNat_replicate_false (k : Nat) (l : List Bool) :
    bitsToNat (List.replicate k false ++ l) = bitsToNat l := by
  induction k with
  | zero => rfl
  | succ k ih =>
    rw [List.replicate_succ, List.cons_append]
    show bitsToNat (List.replicate k false ++ l) = _
    exact ih

theorem bitsToNat_natBitsFixed (w n : Nat) : bitsToNat (natBitsFixed w n) = n := by
  rw [natBitsFixed, bitsToNat_replicate_false, bitsToNat_natBits]

theorem natBitsFixed_length {w n : Nat} (h : n < 2 ^ w) :
    (natBitsFixed w n).length = w := by
  have := natBits_length_le w n h
  simp [natBitsFixed]
  omega

/-- C6.  For every bit string `M` of length `L` (with `L < 2^64`, so that `L`
has a 64-bit representation), the padding step appends a single 1 bit, then
`z` 0 bits with `L + 1 + z ≡ 448 (mod 512)`, then 64 bits that are the
big-endian representation of the original length `L`, so the padded length is
a multiple of 512; in particular an input with `L ≡ 448 (mod 512)` receives a
full extra block of padding (511 zero bits, 576 bits of padding in all). -/
theorem C6_pad_shape (msg : List Bool) (h64 : msg.length < 2 ^ 64) :
    ∃ z : Nat,
      pad msg = msg ++ [true] ++ List.replicate z false ++ natBitsFixed 64 msg.length ∧
      (msg.length + 1 + z) % 512 = 448 ∧
      (natBitsFixed 64 msg.length).length = 64 ∧
      bitsToNat (natBitsFixed 64 msg.length) = msg.length ∧
      (pad msg).length % 512 = 0 ∧
      (msg.length % 512 = 448 → z = 511 ∧ (pad msg).length = msg.length + 576) := by
  refine ⟨padZeros (msg.length + 1), rfl, ?_, natBitsFixed_length h64,
    bitsToNat_natBitsFixed _ _, ?_, ?_⟩
  · rw [padZeros_eq]
    omega
  · have hlen : (pad msg).length =
        msg.length + 1 + padZeros (msg.length + 1) + 64 := by
      simp [pad, natBitsFixed_length h64]
      omega
    rw [hlen, padZeros_eq]
    omega
  · intro h448
    have hlen : (pad msg).length =
        msg.length + 1 + padZeros (msg.length + 1) + 64 := by
      simp [pad, natBitsFixed_length h64]
      omega
    rw [hlen, padZeros_eq]
    constructor
    · omega
    · omega

/-- Witness for C6 at a concrete input: a 448-bit message receives 511 zero
bits and 576 bits of padding in all. -/
theorem C6_pad_shape_witness :
    (List.replicate 448 true).length < 2 ^ 64 ∧
    ∃ z : Nat,
      pad (List.replicate 448 true) = List.replicate 448 true ++ [true] ++
        List.replicate z false ++ natBitsFixed 64 (List.replicate 448 true).length ∧
      ((List.replicate 448 true).length + 1 + z) % 512 = 448 ∧
      (natBitsFixed 64 (List.replicate 448 true).length).length = 64 ∧
      bitsToNat (natBitsFixed 64 (List.replicate 448 true).length) =
        (List.replicate 448 true).length ∧
      (pad (List.replicate 448 true)).length % 512 = 0 ∧
      ((List.replicate 448 true).length % 512 = 448 → z = 511 ∧
        (pad (List.replicate 448 true)).length = (List.replicate 448 true).length + 576) :=
  ⟨by decide, C6_pad_shape (List.replicate 448 true) (by decide)⟩

/-! ## Claim C2: the acceptance condition of `Signature::verify` -/

/-- C2.  `Signature::verify` accepts exactly when the point
`P₃ = (e·s⁻¹)·G + (r·s⁻¹)·Q` is not the point at infinity and its
`x`-coordinate equals the stored `r`, the two compared as plain integers with
no mod-`n` reduction applied to `P₃.x` before the comparison; in every other
case (of a run in which `P₃` is computed) it returns `false`. -/
theorem C2_verify_acceptance (sig : Signature) (msg : String) (kind : InputType)
    (H : Hash256) (w1 : Int) (P1 P2 P3 : Point)
    (hH : sha256 msg kind = Except.ok H)
    (hw1 : mod_inv (sig.s : Int) (sig.curve.n : Int) = Except.ok w1)
    (hP1 : sig.curve.multiply sig.curve.g ((hashToNat H : Int) * w1) = Except.ok P1)
    (hP2 : sig.curve.multiply sig.pub (w1 * (sig.r : Int)) = Except.ok P2)
    (hP3 : sig.curve.add P1 P2 = Except.ok P3) :
    sig.verify msg kind = Except.ok (P3.get_x == some sig.r) ∧
    ((P3.get_x == some sig.r) = true ↔ P3 ≠ Point.infinity ∧ P3.get_x = some sig.r) := by
  constructor
  · unfold Signature.verify
    rw [hH]
    simp only [Except.mapError, ok_bind]
    rw [hw1]
    simp only [Except.mapError, ok_bind]
    rw [hP1]
    simp only [Except.mapError, ok_bind]
    rw [hP2]
    simp only [Except.mapError, ok_bind]
    rw [hP3]
    simp only [Except.mapError, ok_bind]
  · cases P3 with
    | point x y =>
      simp only [Point.get_x, beq_iff_eq, Option.some.injEq, ne_eq]
      constructor
      · intro h
        exact ⟨by simp, h⟩
      · intro h
        exact h.2
    | infinity =>
      simp [Point.get_x]

/-- Witness for C2 on the toy curve: the valid signature `(r, s) = (3, 2)` of
the empty message, where `P₃ = (3, 6)` and `verify` returns `true`. -/
theorem C2_verify_acceptance_witness :
    Signature.verify ⟨3, 2, toy, Point.point 3 6⟩ "" InputType.Text =
      Except.ok ((Point.point 3 6).get_x == some 3) ∧
    (((Point.point 3 6).get_x == some 3) = true ↔
      Point.point 3 6 ≠ Point.infinity ∧ (Point.point 3 6).get_x = some 3) :=
  C2_verify_acceptance ⟨3, 2, toy, Point.point 3 6⟩ "" InputType.Text
    ⟨"e3b0c44298fc1c149afbf4c8996fb92427ae41e4649b934ca495991b7852b855"⟩ 3
    (Point.point 80 10) (Point.point 3 91) (Point.point 3 6)
    (by decide) (by decide) (by decide) (by decide) (by decide)

/-! ## Counterexamples for claims C1, C3, C4, C8 -/

/-- Counterexample to C1 as stated.  On the valid toy curve with the valid key
pair `(1, G)`, the nonce `z = 2 ∈ [1, 5)` makes sign-then-verify fail both
possible ways: for the empty message (`e ≡ 4 (mod 5)`) the produced signature
has `r = 80 mod 5 = 0` while `P₃ = 2·G = (80, 10)`, and `verify` compares the
unreduced `80` with `0` and returns `false`; for the message `"abc"`
(`e ≡ 0 (mod 5)`) the produced signature has `s = 0` and `verify` fails with
`DivisionByZero` instead of returning `true`. -/
theorem C1_counterexample :
    Curve.new 2 3 97 5 (Point.point 3 6) = Except.ok toy ∧
    KeyPair.new 1 toy = Except.ok toyKp ∧
    toyKp.sign "" InputType.Text 2 = Except.ok ⟨0, 2, toy, Point.point 3 6⟩ ∧
    Signature.verify ⟨0, 2, toy, Point.point 3 6⟩ "" InputType.Text = Except.ok false ∧
    toyKp.sign "abc" InputType.Text 2 = Except.ok ⟨0, 0, toy, Point.point 3 6⟩ ∧
    Signature.verify ⟨0, 0, toy, Point.point 3 6⟩ "abc" InputType.Text =
      Except.error (MyshaError.Ecc EccError.DivisionByZero) :=
  ⟨by decide, by decide, by decide, by decide, by decide, by decide⟩

/-- Counterexample to C3 as stated: for a point not on the curve, `multiply`
with `k = 1` returns the point unchecked, silently yielding an off-curve
point. -/
theorem C3_counterexample :
    toy.is_on_curve (Point.point 0 0) = false ∧
    toy.multiply (Point.point 0 0) 1 = Except.ok (Point.point 0 0) :=
  ⟨by decide, by decide⟩

/-- Counterexample to C4 as stated: at `a = 1`, `p = 1` we have `p > 0` and
`gcd(a, p) = 1`, and `y = 0` is the unique value in `[0, p)` with
`a·y ≡ 1 (mod p)` (everything is congruent mod 1), yet `mod_inv` fails with
`NotPrime` because its post-check compares the residue `0` with the literal
`1`. -/
theorem C4_counterexample :
    (0 : Int) < 1 ∧ Int.gcd 1 1 = 1 ∧
    (0 : Int) ≤ 0 ∧ (0 : Int) < 1 ∧ Int.emod (1 * 0) 1 = Int.emod 1 1 ∧
    mod_inv 1 1 = Except.error EccError.NotPrime :=
  ⟨by decide, by decide, by decide, by decide, by decide, by decide⟩

/-- Counterexample to C8 as stated: on the toy curve (`n = 5`) with the valid
public key `G`, the signature `(3, 0)` has `s = 0 ∉ [1, 5)` and `verify`
produces a `DivisionByZero` error rather than a boolean; and the signature
`(3, 7)` has `s = 7 ∉ [1, 5)` yet `verify` returns `true` (7 differs from the
valid `s = 2` by a multiple of `n`), not `false`. -/
theorem C8_counterexample :
    toy.n = 5 ∧
    Signature.verify ⟨3, 0, toy, Point.point 3 6⟩ "" InputType.Text =
      Except.error (MyshaError.Ecc EccError.DivisionByZero) ∧
    Signature.verify ⟨3, 7, toy, Point.point 3 6⟩ "" InputType.Text = Except.ok true :=
  ⟨by decide, by decide, by decide⟩

/-! ## Characterization of `mod_inv` (used by claims C4, C8, C9 and C1) -/

theorem neg_lt_tmod (x : Int) {p : Int} (hp : 0 < p) : -p < Int.tmod x p := by
  cases x with
  | ofNat m =>
    have h : 0 ≤ Int.tmod (Int.ofNat m) p := Int.tmod_nonneg p (Int.natCast_nonneg m)
    omega
  | negSucc m =>
    cases p with
    | ofNat n =>
      have hp2 : (0 : Int) < (n : Int) := hp
      have hn : 0 < n := by omega
      have hlt : (m + 1) % n < n := Nat.mod_lt _ hn
      show -((n : Nat) : Int) < -((((m + 1) % n : Nat) : Int))
      omega
    | negSucc n =>
      have h2 : Int.negSucc n < 0 := Int.negSucc_lt_zero n
      omega

theorem get_mod_ok (x : Int) {p : Int} (hp : 0 < p) : get_mod x p = Except.ok (x % p) := by
  unfold get_mod
  rw [if_neg (by omega)]
  congr 1
  have h1 : -p < Int.tmod x p := neg_lt_tmod x hp
  have h2 : Int.tmod x p < p := Int.tmod_lt_of_pos x hp
  rw [Int.tmod_eq_emod (by omega) (by omega)]
  have e1 : Int.tmod x p + p = Int.tmod x p + p * 1 := by ring
  rw [e1, Int.add_mul_emod_self_left, Int.tmod_def]
  have e2 : x - p * x.tdiv p = x + p * (-x.tdiv p) := by ring
  rw [e2, Int.add_mul_emod_self_left]

theorem toNat_emod {m a : Int} (hm : 0 ≤ m) (ha : 0 < a) :
    (m % a).toNat = m.toNat % a.toNat := by
  obtain ⟨M, rfl⟩ := Int.eq_ofNat_of_zero_le hm
  obtain ⟨A, rfl⟩ := Int.eq_ofNat_of_zero_le ha.le
  norm_cast

theorem modInvLoop_spec (C p : Int) : ∀ (fuel : Nat) (a m y y0 : Int),
    0 ≤ a → 1 < m → a.toNat ≤ fuel →
    (y * C) % p = a % p → (y0 * C) % p = m % p →
    0 ≤ (modInvLoop fuel a m y y0).1 ∧ (modInvLoop fuel a m y y0).1 ≤ 1 ∧
    1 < (modInvLoop fuel a m y y0).2.1 ∧
    Nat.gcd (modInvLoop fuel a m y y0).1.toNat (modInvLoop fuel a m y y0).2.1.toNat =
      Nat.gcd a.toNat m.toNat ∧
    ((modInvLoop fuel a m y y0).2.2.1 * C) % p = (modInvLoop fuel a m y y0).1 % p := by
  intro fuel
  induction fuel with
  | zero =>
    intro a m y y0 ha hm hfuel hy hy0
    have ha0 : a = 0 := by omega
    subst ha0
    have step : modInvLoop 0 0 m y y0 = (0, m, y, y0) := rfl
    rw [step]
    exact ⟨le_refl 0, by omega, hm, rfl, hy⟩
  | succ fuel ih =>
    intro a m y y0 ha hm hfuel hy hy0
    by_cases hone : 1 < a
    · have step : modInvLoop (fuel + 1) a m y y0
          = modInvLoop fuel (Int.tmod m a) a (y0 - Int.tdiv m a * y) y := by
        simp [modInvLoop, hone]
      rw [step]
      have hm0 : (0 : Int) ≤ m := by omega
      have htnn : 0 ≤ Int.tmod m a := Int.tmod_nonneg a hm0
      have htlt : Int.tmod m a < a := Int.tmod_lt_of_pos m (by omega)
      have hfuel2 : (Int.tmod m a).toNat ≤ fuel := by
        generalize hT : Int.tmod m a = T at htnn htlt ⊢
        omega
      have htm : Int.tmod m a = m % a := Int.tmod_eq_emod hm0 (by omega)
      have hq : Int.tmod m a = m - Int.tdiv m a * a := by
        linear_combination Int.tmod_add_tdiv m a
      have hnewy : ((y0 - Int.tdiv m a * y) * C) % p = Int.tmod m a % p := by
        have e1 : (y0 - Int.tdiv m a * y) * C = y0 * C - Int.tdiv m a * (y * C) := by ring
        have hsub : (y0 * C - Int.tdiv m a * (y * C)) % p
            = (m - Int.tdiv m a * a) % p :=
          Int.ModEq.sub hy0 (Int.ModEq.mul_left (Int.tdiv m a) hy)
        rw [e1, hsub, ← hq]
      have hgcd : Nat.gcd (Int.tmod m a).toNat a.toNat = Nat.gcd a.toNat m.toNat := by
        have h2 : (Int.tmod m a).toNat = m.toNat % a.toNat := by
          rw [htm]
          exact toNat_emod hm0 (by omega)
        rw [h2]
        exact (Nat.gcd_rec a.toNat m.toNat).symm
      rcases ih (Int.tmod m a) a (y0 - Int.tdiv m a * y) y htnn hone hfuel2 hnewy hy
        with ⟨c1, c2, c3, c4, c5⟩
      exact ⟨c1, c2, c3, by rw [c4, hgcd], c5⟩
    · have step : modInvLoop (fuel + 1) a m y y0 = (a, m, y, y0) := by
        simp [modInvLoop, hone]
      rw [step]
      exact ⟨ha, by omega, hm, rfl, hy⟩

theorem gcd_emod_left (a0 : Int) {p : Int} (hp : 0 < p) :
    Int.gcd (a0 % p) p = Int.gcd a0 p := by
  have hdef : a0 % p = a0 - p * (a0 / p) := Int.emod_def a0 p
  apply Nat.dvd_antisymm
  · apply Int.natCast_dvd_natCast.mp
    apply Int.dvd_gcd
    · have h1 : (Int.gcd (a0 % p) p : Int) ∣ a0 % p := Int.gcd_dvd_left
      have h2 : (Int.gcd (a0 % p) p : Int) ∣ p := Int.gcd_dvd_right
      have h3 : (Int.gcd (a0 % p) p : Int) ∣ a0 % p + p * (a0 / p) :=
        dvd_add h1 (h2.mul_right _)
      rwa [Int.emod_add_ediv a0 p] at h3
    · exact Int.gcd_dvd_right
  · apply Int.natCast_dvd_natCast.mp
    apply Int.dvd_gcd
    · have h1 : (Int.gcd a0 p : Int) ∣ a0 := Int.gcd_dvd_left
      have h2 : (Int.gcd a0 p : Int) ∣ p := Int.gcd_dvd_right
      rw [hdef]
      exact dvd_sub h1 (h2.mul_right _)
    · exact Int.gcd_dvd_right

theorem gcd_toNat_eq {A p : Int} (hA : 0 ≤ A) (hp : 0 ≤ p) :
    Nat.gcd A.toNat p.toNat = Int.gcd A p := by
  rw [Int.gcd_def]
  congr 1 <;> omega

/-- Full characterization of `mod_inv` for a modulus `p > 1`: it fails with
`NotPrime` when `gcd(a0, p) ≠ 1` and returns the inverse otherwise. -/
theorem mod_inv_char {a0 p : Int} (hp : 1 < p) (ha : a0 ≠ 0) :
    (Int.gcd a0 p ≠ 1 → mod_inv a0 p = Except.error EccError.NotPrime) ∧
    (Int.gcd a0 p = 1 → ∃ y, mod_inv a0 p = Except.ok y ∧ 0 ≤ y ∧ y < p ∧
      (a0 * y) % p = 1 % p) := by
  unfold mod_inv
  rw [if_neg ha]
  have hbind : (if a0 < 0 then get_mod a0 p else Except.ok a0)
      = Except.ok (if a0 < 0 then a0 % p else a0) := by
    by_cases h : a0 < 0
    · simp [h, get_mod_ok a0 (by omega : (0 : Int) < p)]
    · simp [h]
  rw [hbind, ok_bind]
  have hA0 : 0 ≤ (if a0 < 0 then a0 % p else a0) := by
    by_cases h : a0 < 0 <;> simp [h]
    · exact Int.emod_nonneg a0 (by omega)
    · omega
  have hAmod : (if a0 < 0 then a0 % p else a0) % p = a0 % p := by
    by_cases h : a0 < 0 <;> simp [h, Int.emod_emod]
  have hAgcd : Nat.gcd (if a0 < 0 then a0 % p else a0).toNat p.toNat = Int.gcd a0 p := by
    rw [gcd_toNat_eq hA0 (by omega)]
    by_cases h : a0 < 0 <;> simp [h]
    exact gcd_emod_left a0 (by omega)
  rcases hloop : modInvLoop (if a0 < 0 then a0 % p else a0).toNat
      (if a0 < 0 then a0 % p else a0) p 1 0 with ⟨a1, m1, y1, y01⟩
  have hspec := modInvLoop_spec a0 p (if a0 < 0 then a0 % p else a0).toNat
    (if a0 < 0 then a0 % p else a0) p 1 0 hA0 hp (le_refl _)
    (by rw [one_mul, hAmod]) (by rw [zero_mul, Int.zero_emod, Int.emod_self])
  rw [hloop] at hspec
  rcases hspec with ⟨h1, h2, h3, h4, h5⟩
  rw [hAgcd] at h4
  have h1' : 0 ≤ a1 := h1
  have h2' : a1 ≤ 1 := h2
  have h3' : 1 < m1 := h3
  have h4' : Nat.gcd a1.toNat m1.toNat = Int.gcd a0 p := h4
  have h5' : (y1 * a0) % p = a1 % p := h5
  clear h1 h2 h3 h4 h5
  simp only [hloop]
  rw [get_mod_ok y1 (by omega : (0 : Int) < p), ok_bind]
  have hmul : get_mod (y1 % p * a0) p = Except.ok ((y1 * a0) % p) := by
    rw [get_mod_ok _ (by omega : (0 : Int) < p)]
    congr 1
    rw [Int.mul_emod, Int.emod_emod, ← Int.mul_emod]
  constructor
  · intro hgcd_ne
    have ha1 : a1 = 0 := by
      rcases (by omega : a1 = 0 ∨ a1 = 1) with h | h
      · exact h
      · exfalso
        apply hgcd_ne
        rw [← h4', h]
        simp
    have hzero : (y1 * a0) % p = 0 := by
      rw [h5', ha1]
      simp
    have hcond : get_mod (y1 % p * a0) p ≠ Except.ok 1 := by
      rw [hmul, hzero]
      simp
    rw [if_pos hcond]
  · intro hgcd1
    have ha1 : a1 = 1 := by
      rcases (by omega : a1 = 0 ∨ a1 = 1) with h | h
      · exfalso
        rw [← h4', h] at hgcd1
        simp at hgcd1
        omega
      · exact h
    have hinv : (y1 * a0) % p = 1 % p := by
      rw [h5', ha1]
    have h1p : (1 : Int) % p = 1 := Int.emod_eq_of_lt (by omega) (by omega)
    refine ⟨y1 % p, ?_, Int.emod_nonneg y1 (by omega), Int.emod_lt_of_pos y1 (by omega), ?_⟩
    · have hcond : ¬ (get_mod (y1 % p * a0) p ≠ Except.ok 1) := by
        rw [hmul, hinv, h1p]
        simp
      rw [if_neg hcond]
    · rw [mul_comm]
      rw [Int.mul_emod, Int.emod_emod, ← Int.mul_emod]
      exact hinv

/-- Uniqueness of the modular inverse in `[0, p)` when `gcd(a0, p) = 1`. -/
theorem inverse_unique {a0 p y1 y2 : Int} (hp : 1 < p) (hg : Int.gcd a0 p = 1)
    (h1a : 0 ≤ y1) (h1b : y1 < p) (e1 : (a0 * y1) % p = 1 % p)
    (h2a : 0 ≤ y2) (h2b : y2 < p) (e2 : (a0 * y2) % p = 1 % p) : y1 = y2 := by
  have hmeq : Int.ModEq p (a0 * y1) (a0 * y2) := e1.trans e2.symm
  have hcan := Int.ModEq.cancel_left_div_gcd (m := p) (by omega) hmeq
  rw [Int.gcd_comm p a0, hg] at hcan
  have h3 : y1 % p = y2 % p := by simpa using hcan
  rw [Int.emod_eq_of_lt h1a h1b, Int.emod_eq_of_lt h2a h2b] at h3
  exact h3

theorem mod_inv_zero (p : Int) : mod_inv 0 p = Except.error EccError.DivisionByZero := by
  unfold mod_inv
  simp

/-! ## Claim C4 (amended): the contract of `mod_inv` for `p > 1` -/

/-- C4, amended to require `p > 1` (for `p = 1` the claim fails:
`gcd(a, 1) = 1` yet `mod_inv` reports `NotPrime`, see the counterexample).
For every `a` and every `p > 1`: `mod_inv(a, p)` fails with `DivisionByZero`
if `a = 0`; if `gcd(a, p) ≠ 1` it fails with `NotPrime` because the computed
candidate fails the post-check `a·y ≡ 1 (mod p)`; and if `gcd(a, p) = 1` it
returns the unique `y ∈ [0, p)` with `a·y ≡ 1 (mod p)`. -/
theorem C4_mod_inv_amended (a p : Int) (hp : 1 < p) :
    (a = 0 → mod_inv a p = Except.error EccError.DivisionByZero) ∧
    (a ≠ 0 → Int.gcd a p ≠ 1 → mod_inv a p = Except.error EccError.NotPrime) ∧
    (a ≠ 0 → Int.gcd a p = 1 →
      ∃ y, mod_inv a p = Except.ok y ∧ 0 ≤ y ∧ y < p ∧ (a * y) % p = 1 % p ∧
        ∀ y2, 0 ≤ y2 → y2 < p → (a * y2) % p = 1 % p → y2 = y) := by
  refine ⟨?_, ?_, ?_⟩
  · intro h
    subst h
    exact mod_inv_zero p
  · intro ha hg
    exact (mod_inv_char hp ha).1 hg
  · intro ha hg
    rcases (mod_inv_char hp ha).2 hg with ⟨y, hok, hy0, hyp, hinv⟩
    exact ⟨y, hok, hy0, hyp, hinv,
      fun y2 h2a h2b h2c => inverse_unique hp hg h2a h2b h2c hy0 hyp hinv⟩

/-- Witness for C4 (amended) at `a = 3`, `p = 5`: `mod_inv 3 5 = 2`. -/
theorem C4_mod_inv_amended_witness :
    (1 : Int) < 5 ∧ (mod_inv 3 5 = Except.ok 2 ∧ (3 * 2 : Int) % 5 = 1 % 5) := by
  refine ⟨by decide, ?_, by decide⟩
  rcases (C4_mod_inv_amended 3 5 (by decide)).2.2 (by decide) (by decide)
    with ⟨y, hok, hy0, hyp, hinv, huniq⟩
  have hy : y = 2 := (huniq 2 (by decide) (by decide) (by decide)).symm
  rw [← hy]
  exact hok

/-! ## Claim C9: commutativity of `Curve::add` -/

theorem get_mod_p_zero (x : Int) : get_mod x 0 = Except.error EccError.DivisionByZero := by
  unfold get_mod
  simp

theorem mod_inv_p_zero {a0 : Int} (ha : a0 ≠ 0) :
    mod_inv a0 0 = Except.error EccError.DivisionByZero := by
  unfold mod_inv
  rw [if_neg ha]
  by_cases h : a0 < 0
  · rw [if_pos h, get_mod_p_zero, error_bind]
  · rw [if_neg h, ok_bind]
    rcases hl : modInvLoop a0.toNat a0 0 1 0 with ⟨a1, m1, y1, y01⟩
    simp only [hl]
    rw [get_mod_p_zero, error_bind]

theorem mod_inv_p_one {a0 : Int} (ha : a0 ≠ 0) :
    mod_inv a0 1 = Except.error EccError.NotPrime := by
  unfold mod_inv
  rw [if_neg ha]
  have hbind : (if a0 < 0 then get_mod a0 1 else Except.ok a0)
      = Except.ok (if a0 < 0 then a0 % 1 else a0) := by
    by_cases h : a0 < 0 <;> simp [h, get_mod_ok a0 (by decide : (0 : Int) < 1)]
  rw [hbind, ok_bind]
  rcases hl : modInvLoop (if a0 < 0 then a0 % 1 else a0).toNat
      (if a0 < 0 then a0 % 1 else a0) 1 1 0 with ⟨a1, m1, y1, y01⟩
  simp only [hl]
  rw [get_mod_ok y1 (by decide : (0 : Int) < 1), ok_bind]
  have hcheck : get_mod (y1 % 1 * a0) 1 ≠ Except.ok 1 := by
    rw [get_mod_ok _ (by decide : (0 : Int) < 1)]
    simp [Int.emod_one]
  rw [if_pos hcheck]

theorem gcd_neg_left (u p : Int) : Int.gcd (-u) p = Int.gcd u p := by
  simp [Int.gcd_def]

theorem emod_modEq (x p : Int) : Int.ModEq p (x % p) x := Int.emod_emod x p

/-- For coprime `u` and `p > 1`, the inverses of `u` and `-u` returned by
`mod_inv` are complementary: `mod_inv (-u) p = p - mod_inv u p`. -/
theorem mod_inv_neg_eq {u p i1 : Int} (hp : 1 < p) (hu : u ≠ 0) (hg : Int.gcd u p = 1)
    (hok : mod_inv u p = Except.ok i1) :
    0 < i1 ∧ i1 < p ∧ (u * i1) % p = 1 % p ∧ mod_inv (-u) p = Except.ok (p - i1) := by
  rcases (mod_inv_char hp hu).2 hg with ⟨j, hokj, hja, hjb, hjinv⟩
  rw [hok] at hokj
  injection hokj with hj
  subst hj
  have h1p : (1 : Int) % p = 1 := Int.emod_eq_of_lt (by omega) (by omega)
  have hi1pos : 0 < i1 := by
    rcases eq_or_lt_of_le hja with h | h
    · exfalso
      rw [← h] at hjinv
      simp [h1p] at hjinv
    · exact h
  refine ⟨hi1pos, hjb, hjinv, ?_⟩
  rcases (mod_inv_char hp (by omega : -u ≠ 0)).2 (by rw [gcd_neg_left]; exact hg)
    with ⟨i2, hok2, hi2a, hi2b, hinv2⟩
  have he2 : (-u * (p - i1)) % p = 1 % p := by
    have e : -u * (p - i1) = u * i1 + p * (-u) := by ring
    rw [e, Int.add_mul_emod_self_left]
    exact hjinv
  have : i2 = p - i1 :=
    inverse_unique hp (by rw [gcd_neg_left]; exact hg) hi2a hi2b hinv2
      (by omega) (by omega) he2
  rw [← this]
  exact hok2

/-- Reduction of `Curve.add` on two finite on-curve points with distinct
`x` coordinates: the generic chord case. -/
theorem add_eq_of_points {c : Curve} {px py qx qy : Nat}
    (h1 : c.is_on_curve (Point.point px py) = true)
    (h2 : c.is_on_curve (Point.point qx qy) = true)
    (hne : Point.point px py ≠ Point.point qx qy) (hx : px ≠ qx) :
    c.add (Point.point px py) (Point.point qx qy) =
      (mod_inv ((px : Int) - (qx : Int)) (c.p : Int) >>= fun inv =>
       get_mod (((py : Int) - (qy : Int)) * inv) (c.p : Int) >>= fun slope =>
       get_mod (slope ^ 2 - (px : Int) - (qx : Int)) (c.p : Int) >>= fun x =>
       get_mod (slope * ((px : Int) - x) - (py : Int)) (c.p : Int) >>= fun y =>
       Except.ok (Point.point x.toNat y.toNat)) := by
  unfold Curve.add
  rw [if_neg (by simp [h1, h2]), if_neg hne]
  dsimp only
  rw [if_neg hx]

/-- Reduction of `Curve.add` on two distinct finite on-curve points sharing
their `x` coordinate: the result is the point at infinity. -/
theorem add_eq_of_points_eq_x {c : Curve} {px py qx qy : Nat}
    (h1 : c.is_on_curve (Point.point px py) = true)
    (h2 : c.is_on_curve (Point.point qx qy) = true)
    (hne : Point.point px py ≠ Point.point qx qy) (hx : px = qx) :
    c.add (Point.point px py) (Point.point qx qy) = Except.ok Point.infinity := by
  unfold Curve.add
  rw [if_neg (by simp [h1, h2]), if_neg hne]
  dsimp only
  rw [if_pos hx]

/-- Reduction of `Curve.add` when the left point is at infinity. -/
theorem add_inf_left {c : Curve} {Q : Point} (h2 : c.is_on_curve Q = true)
    (hne : Point.infinity ≠ Q) : c.add Point.infinity Q = Except.ok Q := by
  have hinf : c.is_on_curve Point.infinity = true := rfl
  unfold Curve.add
  rw [if_neg (by simp [h2, hinf]), if_neg hne]

/-- Reduction of `Curve.add` when the right point is at infinity. -/
theorem add_inf_right {c : Curve} {px py : Nat}
    (h1 : c.is_on_curve (Point.point px py) = true)
    (hne : Point.point px py ≠ Point.infinity) :
    c.add (Point.point px py) Point.infinity = Except.ok (Point.point px py) := by
  have hinf : c.is_on_curve Point.infinity = true := rfl
  unfold Curve.add
  rw [if_neg (by simp [h1, hinf]), if_neg hne]

/-- C9.  For every curve `C` and every pair of points `P`, `Q` on `C`,
`C.add(P, Q)` equals `C.add(Q, P)` (both the success value and the error
outcome agree). -/
theorem C9_add_comm (c : Curve) (P Q : Point)
    (hP : c.is_on_curve P = true) (hQ : c.is_on_curve Q = true) :
    c.add P Q = c.add Q P := by
  by_cases hpq : P = Q
  · subst hpq
    rfl
  · cases P with
    | infinity =>
      cases Q with
      | infinity => rfl
      | point qx qy =>
        rw [add_inf_left hQ hpq, add_inf_right hQ (Ne.symm hpq)]
    | point px py =>
      cases Q with
      | infinity =>
        rw [add_inf_right hP hpq, add_inf_left hP (Ne.symm hpq)]
      | point qx qy =>
        by_cases hx : px = qx
        · rw [add_eq_of_points_eq_x hP hQ hpq hx,
            add_eq_of_points_eq_x hQ hP (Ne.symm hpq) hx.symm]
        · rw [add_eq_of_points hP hQ hpq hx, add_eq_of_points hQ hP (Ne.symm hpq) (Ne.symm hx)]
          have hu : ((px : Int) - (qx : Int)) ≠ 0 := by
            intro h
            apply hx
            omega
          have huneg : ((qx : Int) - (px : Int)) = -((px : Int) - (qx : Int)) := by ring
          rcases Nat.lt_or_ge c.p 2 with hp2 | hp2
          · interval_cases hcp : c.p
            · simp only [Nat.cast_zero]
              rw [mod_inv_p_zero hu, mod_inv_p_zero (by rw [huneg]; omega), error_bind,
                error_bind]
            · simp only [Nat.cast_one]
              rw [mod_inv_p_one hu, mod_inv_p_one (by rw [huneg]; omega), error_bind,
                error_bind]
          · have hp1 : (1 : Int) < (c.p : Int) := by exact_mod_cast hp2
            by_cases hg : Int.gcd ((px : Int) - (qx : Int)) ((c.p : Nat) : Int) = 1
            · rcases hchar : mod_inv ((px : Int) - (qx : Int)) ((c.p : Nat) : Int)
                with e | i1
              · rcases (mod_inv_char hp1 hu).2 hg with ⟨y, hy, _⟩
                rw [hchar] at hy
                cases hy
              · rcases mod_inv_neg_eq hp1 hu hg hchar with ⟨hi1a, hi1b, hinv, hok2⟩
                rw [huneg, hok2, ok_bind, ok_bind]
                have hp0 : (0 : Int) < (c.p : Int) := by omega
                rw [get_mod_ok _ hp0, get_mod_ok _ hp0, ok_bind, ok_bind]
                have hslope : (((py : Int) - (qy : Int)) * i1) % (c.p : Int)
                    = (((qy : Int) - (py : Int)) * ((c.p : Int) - i1)) % (c.p : Int) := by
                  have e : ((qy : Int) - (py : Int)) * ((c.p : Int) - i1)
                      = ((py : Int) - (qy : Int)) * i1
                        + (c.p : Int) * ((qy : Int) - (py : Int)) := by
                    ring
                  rw [e, Int.add_mul_emod_self_left]
                rw [← hslope]
                have hxcomm : ((((py : Int) - (qy : Int)) * i1 % (c.p : Int)) ^ 2
                    - (qx : Int) - (px : Int))
                    = ((((py : Int) - (qy : Int)) * i1 % (c.p : Int)) ^ 2
                    - (px : Int) - (qx : Int)) := by ring
                rw [hxcomm]
                rw [get_mod_ok _ hp0, ok_bind, ok_bind]
                have hsu : Int.ModEq (c.p : Int)
                    ((((py : Int) - (qy : Int)) * i1 % (c.p : Int)) * ((px : Int) - (qx : Int)))
                    ((py : Int) - (qy : Int)) := by
                  have h1 : Int.ModEq (c.p : Int)
                      ((((py : Int) - (qy : Int)) * i1 % (c.p : Int)) * ((px : Int) - (qx : Int)))
                      ((((py : Int) - (qy : Int)) * i1) * ((px : Int) - (qx : Int))) :=
                    Int.ModEq.mul_right _ (emod_modEq _ _)
                  have h3 : Int.ModEq (c.p : Int) (((px : Int) - (qx : Int)) * i1) 1 := hinv
                  have h4 : Int.ModEq (c.p : Int)
                      (((py : Int) - (qy : Int)) * (((px : Int) - (qx : Int)) * i1))
                      (((py : Int) - (qy : Int)) * 1) := h3.mul_left _
                  have e : (((py : Int) - (qy : Int)) * i1) * ((px : Int) - (qx : Int))
                      = ((py : Int) - (qy : Int)) * (((px : Int) - (qx : Int)) * i1) := by ring
                  have e2 : ((py : Int) - (qy : Int)) * 1 = ((py : Int) - (qy : Int)) := by ring
                  rw [e] at h1
                  rw [e2] at h4
                  exact h1.trans h4
                have hy12 : ((((py : Int) - (qy : Int)) * i1 % (c.p : Int))
                      * ((px : Int) - ((((py : Int) - (qy : Int)) * i1 % (c.p : Int)) ^ 2
                        - (px : Int) - (qx : Int)) % (c.p : Int)) - (py : Int)) % (c.p : Int)
                    = ((((py : Int) - (qy : Int)) * i1 % (c.p : Int))
                      * ((qx : Int) - ((((py : Int) - (qy : Int)) * i1 % (c.p : Int)) ^ 2
                        - (px : Int) - (qx : Int)) % (c.p : Int)) - (qy : Int)) % (c.p : Int) := by
                  have hzero : Int.ModEq (c.p : Int)
                      ((((py : Int) - (qy : Int)) * i1 % (c.p : Int))
                        * ((px : Int) - (qx : Int)) - ((py : Int) - (qy : Int))) 0 := by
                    have := hsu.sub (Int.ModEq.refl ((py : Int) - (qy : Int)))
                    simpa using this
                  have e : ∀ X : Int,
                      (((py : Int) - (qy : Int)) * i1 % (c.p : Int)) * ((px : Int) - X)
                        - (py : Int)
                        = ((((py : Int) - (qy : Int)) * i1 % (c.p : Int)) * ((qx : Int) - X)
                          - (qy : Int))
                          + ((((py : Int) - (qy : Int)) * i1 % (c.p : Int))
                            * ((px : Int) - (qx : Int)) - ((py : Int) - (qy : Int))) := by
                    intro X
                    ring
                  rw [e _]
                  have hsum := (Int.ModEq.refl
                    ((((py : Int) - (qy : Int)) * i1 % (c.p : Int))
                      * ((qx : Int) - ((((py : Int) - (qy : Int)) * i1 % (c.p : Int)) ^ 2
                        - (px : Int) - (qx : Int)) % (c.p : Int)) - (qy : Int))).add hzero
                  simpa using hsum
                rw [get_mod_ok _ hp0, get_mod_ok _ hp0, ok_bind, ok_bind, hy12]
            · have hgneg : Int.gcd ((qx : Int) - (px : Int)) ((c.p : Nat) : Int) ≠ 1 := by
                rw [huneg, gcd_neg_left]
                exact hg
              rw [(mod_inv_char hp1 hu).1 hg,
                (mod_inv_char hp1 (by rw [huneg]; omega : (qx : Int) - (px : Int) ≠ 0)).1 hgneg,
                error_bind, error_bind]

/-- Witness for C9 at concrete on-curve points of the toy curve. -/
theorem C9_add_comm_witness :
    toy.is_on_curve (Point.point 17 10) = true ∧
    toy.is_on_curve (Point.point 95 31) = true ∧
    toy.add (Point.point 17 10) (Point.point 95 31)
      = toy.add (Point.point 95 31) (Point.point 17 10) :=
  ⟨by decide, by decide,
    C9_add_comm toy (Point.point 17 10) (Point.point 95 31) (by decide) (by decide)⟩

/-! ## Claim C3: the curve operations preserve the curve (amended) -/

theorem mod_inv_ok_inverse {a0 p y : Int} (hp : 0 < p) (h : mod_inv a0 p = Except.ok y) :
    0 ≤ y ∧ y < p ∧ (y * a0) % p = 1 ∧ 1 < p := by
  unfold mod_inv at h
  split at h
  · cases h
  · rcases bind_eq_ok h with ⟨A, hA, h2⟩
    rcases hloop : modInvLoop A.toNat A p 1 0 with ⟨a1, m1, y1, y01⟩
    rw [hloop] at h2
    rcases bind_eq_ok h2 with ⟨res, hres, h3⟩
    rw [get_mod_ok y1 hp] at hres
    injection hres with hres
    subst hres
    split at h3
    · cases h3
    · rename_i hcheck
      rw [not_not, get_mod_ok _ hp] at hcheck
      injection h3 with h3
      subst h3
      injection hcheck with hcheck
      have hnn : 0 ≤ (y1 % p * a0) % p := Int.emod_nonneg _ (by omega)
      have hlt : (y1 % p * a0) % p < p := Int.emod_lt_of_pos _ hp
      refine ⟨Int.emod_nonneg y1 (by omega), Int.emod_lt_of_pos y1 hp, hcheck, by omega⟩

theorem intCast_emod_zmod (z : Int) (p : Nat) :
    (((z % (p : Int)) : Int) : ZMod p) = ((z : Int) : ZMod p) := by
  rw [ZMod.intCast_eq_intCast_iff']
  exact Int.emod_emod z (p : Int)

theorem natCast_toNat_zmod {z : Int} (hz : 0 ≤ z) (p : Nat) :
    ((z.toNat : Nat) : ZMod p) = ((z : Int) : ZMod p) := by
  rw [← Int.cast_natCast, Int.toNat_of_nonneg hz]

/-- The on-curve test, phrased in `ZMod p`. -/
theorem is_on_curve_iff {c : Curve} (hp : c.p ≠ 0) (x y : Nat) :
    c.is_on_curve (Point.point x y) = true ↔
      ((y : ZMod c.p)) ^ 2 = ((x : ZMod c.p)) ^ 3
        + ((c.a : Int) : ZMod c.p) * (x : ZMod c.p) + ((c.b : Int) : ZMod c.p) := by
  haveI : NeZero c.p := ⟨hp⟩
  unfold Curve.is_on_curve
  rw [beq_iff_eq, ← Int.dvd_iff_tmod_eq_zero, ← ZMod.intCast_zmod_eq_zero_iff_dvd]
  push_cast
  constructor
  · intro h
    linear_combination h
  · intro h
    linear_combination h

/-- The tangent construction stays on the curve: pure commutative-ring
algebra, with `V` an inverse of `2Y`. -/
theorem tangent_case {F : Type} [CommRing F] (A B X Y V : F)
    (E1 : Y ^ 2 = X ^ 3 + A * X + B) (HUV : V * (2 * Y) = 1) :
    ((X ^ 2 * 3 + A) * V * (X - (((X ^ 2 * 3 + A) * V) ^ 2 - 2 * X)) - Y) ^ 2
      = (((X ^ 2 * 3 + A) * V) ^ 2 - 2 * X) ^ 3
        + A * (((X ^ 2 * 3 + A) * V) ^ 2 - 2 * X) + B := by
  linear_combination E1 + (((((X ^ 2 * 3 + A) * V) ^ 2 - 2 * X) - X) * (3 * X ^ 2 + A)) * HUV

/-- The chord construction stays on the curve: pure commutative-ring algebra,
with `V` an inverse of `X1 - X2`. -/
theorem chord_case {F : Type} [CommRing F] (A B X1 Y1 X2 Y2 V : F)
    (E1 : Y1 ^ 2 = X1 ^ 3 + A * X1 + B) (E2 : Y2 ^ 2 = X2 ^ 3 + A * X2 + B)
    (HUV : V * (X1 - X2) = 1) :
    ((Y1 - Y2) * V * (X1 - (((Y1 - Y2) * V) ^ 2 - X1 - X2)) - Y1) ^ 2
      = (((Y1 - Y2) * V) ^ 2 - X1 - X2) ^ 3
        + A * (((Y1 - Y2) * V) ^ 2 - X1 - X2) + B := by
  linear_combination
    (1 - V * (X1 - (((Y1 - Y2) * V) ^ 2 - X1 - X2))) * E1
    + (V * (X1 - (((Y1 - Y2) * V) ^ 2 - X1 - X2))) * E2
    + ((X1 - (((Y1 - Y2) * V) ^ 2 - X1 - X2))
        * (V * (-2 * Y2 * (Y1 - Y2) + (Y1 - Y2) ^ 2 * (V * (X1 - X2) - 1))
          - (A - 2 * ((Y1 - Y2) * V) * (Y1 - ((Y1 - Y2) * V) * X1)
            - (X1 * X2 + X1 * (((Y1 - Y2) * V) ^ 2 - X1 - X2)
              + X2 * (((Y1 - Y2) * V) ^ 2 - X1 - X2))))) * HUV

theorem double_ok_on_curve {c : Curve} {P R : Point} (h : c.double P = Except.ok R) :
    c.is_on_curve R = true ∧ Reduced c R := by
  cases P with
  | infinity =>
    have hinf : c.double Point.infinity = Except.ok Point.infinity := rfl
    rw [hinf] at h
    injection h with h
    subst h
    exact ⟨rfl, trivial⟩
  | point x y =>
    unfold Curve.double at h
    split at h
    · cases h
    · rename_i honc
      rw [not_not] at honc
      dsimp only at h
      split at h
      · injection h with h
        subst h
        exact ⟨rfl, trivial⟩
      · rename_i hy0
        rcases bind_eq_ok h with ⟨inv, hinv, h2⟩
        rcases bind_eq_ok h2 with ⟨slope, hslope, h3⟩
        rcases bind_eq_ok h3 with ⟨x1, hx1, h4⟩
        rcases bind_eq_ok h4 with ⟨y1, hy1, h5⟩
        injection h5 with h5
        subst h5
        have hp0 : (0 : Int) < (c.p : Int) := by
          rcases Nat.eq_zero_or_pos c.p with h0 | hpos
          · exfalso
            rw [show ((c.p : Nat) : Int) = 0 from by omega,
              mod_inv_p_zero (by omega : 2 * (y : Int) ≠ 0)] at hinv
            cases hinv
          · exact_mod_cast hpos
        obtain ⟨hia, hib, hiinv, hp1⟩ := mod_inv_ok_inverse hp0 hinv
        rw [get_mod_ok _ hp0] at hslope hx1 hy1
        injection hslope with hslope
        injection hx1 with hx1
        injection hy1 with hy1
        subst hslope
        subst hx1
        subst hy1
        have hpne : c.p ≠ 0 := by omega
        constructor
        · rw [is_on_curve_iff hpne]
          have hE := (is_on_curve_iff hpne x y).mp honc
          have h1p : (1 : Int) % (c.p : Int) = 1 := Int.emod_eq_of_lt (by omega) (by omega)
          have hHUV : ((inv : Int) : ZMod c.p) * (2 * ((y : Nat) : ZMod c.p)) = 1 := by
            have hcast : ((inv * (2 * (y : Int)) : Int) : ZMod c.p)
                = (((1 : Int)) : ZMod c.p) := by
              rw [ZMod.intCast_eq_intCast_iff', hiinv, h1p]
            push_cast at hcast
            linear_combination hcast
          rw [natCast_toNat_zmod (Int.emod_nonneg _ (by omega)) c.p,
            natCast_toNat_zmod (Int.emod_nonneg _ (by omega)) c.p,
            intCast_emod_zmod, intCast_emod_zmod]
          push_cast
          linear_combination tangent_case ((c.a : Int) : ZMod c.p) ((c.b : Int) : ZMod c.p)
            ((x : Nat) : ZMod c.p) ((y : Nat) : ZMod c.p) ((inv : Int) : ZMod c.p) hE hHUV
        · constructor
          · have ha := Int.emod_nonneg ((((x : Int) ^ 2 * 3 + c.a) * inv % (c.p : Int)) ^ 2
              - 2 * (x : Int)) (by omega : ((c.p : Nat) : Int) ≠ 0)
            have hb := Int.emod_lt_of_pos ((((x : Int) ^ 2 * 3 + c.a) * inv % (c.p : Int)) ^ 2
              - 2 * (x : Int)) hp0
            omega
          · have ha := Int.emod_nonneg ((((x : Int) ^ 2 * 3 + c.a) * inv % (c.p : Int))
              * ((x : Int) - ((((x : Int) ^ 2 * 3 + c.a) * inv % (c.p : Int)) ^ 2
                - 2 * (x : Int)) % (c.p : Int)) - (y : Int)) (by omega : ((c.p : Nat) : Int) ≠ 0)
            have hb := Int.emod_lt_of_pos ((((x : Int) ^ 2 * 3 + c.a) * inv % (c.p : Int))
              * ((x : Int) - ((((x : Int) ^ 2 * 3 + c.a) * inv % (c.p : Int)) ^ 2
                - 2 * (x : Int)) % (c.p : Int)) - (y : Int)) hp0
            omega

theorem add_ok_on_curve {c : Curve} {P Q R : Point} (h : c.add P Q = Except.ok R) :
    c.is_on_curve R = true ∧ (Reduced c P → Reduced c Q → Reduced c R) := by
  unfold Curve.add at h
  split at h
  · cases h
  · rename_i honcs
    rw [not_not] at honcs
    obtain ⟨hP, hQ⟩ := honcs
    split at h
    · rename_i hpq
      obtain ⟨h1, h2⟩ := double_ok_on_curve h
      exact ⟨h1, fun _ _ => h2⟩
    · rename_i hpq
      cases P with
      | infinity =>
        dsimp only at h
        injection h with h
        subst h
        exact ⟨hQ, fun _ hq => hq⟩
      | point px py =>
        cases Q with
        | infinity =>
          dsimp only at h
          injection h with h
          subst h
          exact ⟨hP, fun hp _ => hp⟩
        | point qx qy =>
          dsimp only at h
          split at h
          · injection h with h
            subst h
            exact ⟨rfl, fun _ _ => trivial⟩
          · rename_i hxne
            rcases bind_eq_ok h with ⟨inv, hinv, h2⟩
            rcases bind_eq_ok h2 with ⟨slope, hslope, h3⟩
            rcases bind_eq_ok h3 with ⟨xv, hx1, h4⟩
            rcases bind_eq_ok h4 with ⟨yv, hy1, h5⟩
            injection h5 with h5
            subst h5
            have hu : (px : Int) - (qx : Int) ≠ 0 := by
              intro hc
              apply hxne
              omega
            have hp0 : (0 : Int) < (c.p : Int) := by
              rcases Nat.eq_zero_or_pos c.p with h0 | hpos
              · exfalso
                rw [show ((c.p : Nat) : Int) = 0 from by omega, mod_inv_p_zero hu] at hinv
                cases hinv
              · exact_mod_cast hpos
            obtain ⟨hia, hib, hiinv, hp1⟩ := mod_inv_ok_inverse hp0 hinv
            rw [get_mod_ok _ hp0] at hslope hx1 hy1
            injection hslope with hslope
            injection hx1 with hx1
            injection hy1 with hy1
            subst hslope
            subst hx1
            subst hy1
            have hpne : c.p ≠ 0 := by omega
            constructor
            · rw [is_on_curve_iff hpne]
              have hE1 := (is_on_curve_iff hpne px py).mp hP
              have hE2 := (is_on_curve_iff hpne qx qy).mp hQ
              have h1p : (1 : Int) % (c.p : Int) = 1 := Int.emod_eq_of_lt (by omega) (by omega)
              have hHUV : ((inv : Int) : ZMod c.p)
                  * (((px : Nat) : ZMod c.p) - ((qx : Nat) : ZMod c.p)) = 1 := by
                have hcast : ((inv * ((px : Int) - (qx : Int)) : Int) : ZMod c.p)
                    = (((1 : Int)) : ZMod c.p) := by
                  rw [ZMod.intCast_eq_intCast_iff', hiinv, h1p]
                push_cast at hcast
                linear_combination hcast
              rw [natCast_toNat_zmod (Int.emod_nonneg _ (by omega)) c.p,
                natCast_toNat_zmod (Int.emod_nonneg _ (by omega)) c.p,
                intCast_emod_zmod, intCast_emod_zmod]
              push_cast
              linear_combination chord_case ((c.a : Int) : ZMod c.p) ((c.b : Int) : ZMod c.p)
                ((px : Nat) : ZMod c.p) ((py : Nat) : ZMod c.p)
                ((qx : Nat) : ZMod c.p) ((qy : Nat) : ZMod c.p)
                ((inv : Int) : ZMod c.p) hE1 hE2 hHUV
            · intro _ _
              constructor
              · have ha := Int.emod_nonneg ((((py : Int) - (qy : Int)) * inv % (c.p : Int)) ^ 2
                  - (px : Int) - (qx : Int)) (by omega : ((c.p : Nat) : Int) ≠ 0)
                have hb := Int.emod_lt_of_pos ((((py : Int) - (qy : Int)) * inv % (c.p : Int)) ^ 2
                  - (px : Int) - (qx : Int)) hp0
                omega
              · have ha := Int.emod_nonneg ((((py : Int) - (qy : Int)) * inv % (c.p : Int))
                  * ((px : Int) - ((((py : Int) - (qy : Int)) * inv % (c.p : Int)) ^ 2
                    - (px : Int) - (qx : Int)) % (c.p : Int)) - (py : Int))
                  (by omega : ((c.p : Nat) : Int) ≠ 0)
                have hb := Int.emod_lt_of_pos ((((py : Int) - (qy : Int)) * inv % (c.p : Int))
                  * ((px : Int) - ((((py : Int) - (qy : Int)) * inv % (c.p : Int)) ^ 2
                    - (px : Int) - (qx : Int)) % (c.p : Int)) - (py : Int)) hp0
                omega

theorem point_neg_ok_on_curve {c : Curve} {P R : Point}
    (hP : c.is_on_curve P = true) (h : P.point_neg ((c.p : Nat) : Int) = Except.ok R) :
    c.is_on_curve R = true ∧ (Reduced c P → Reduced c R) := by
  cases P with
  | infinity =>
    unfold Point.point_neg at h
    injection h with h
    subst h
    exact ⟨rfl, fun _ => trivial⟩
  | point x y =>
    unfold Point.point_neg at h
    rcases bind_eq_ok h with ⟨m, hm, h2⟩
    injection h2 with h2
    subst h2
    have hp0 : (0 : Int) < (c.p : Int) := by
      rcases Nat.eq_zero_or_pos c.p with h0 | hpos
      · exfalso
        rw [show ((c.p : Nat) : Int) = 0 from by omega, get_mod_p_zero] at hm
        cases hm
      · exact_mod_cast hpos
    rw [get_mod_ok _ hp0] at hm
    injection hm with hm
    subst hm
    have hpne : c.p ≠ 0 := by omega
    constructor
    · rw [is_on_curve_iff hpne]
      have hE := (is_on_curve_iff hpne x y).mp hP
      rw [natCast_toNat_zmod (Int.emod_nonneg _ (by omega)) c.p, intCast_emod_zmod]
      push_cast
      linear_combination hE
    · intro hred
      obtain ⟨hx, _⟩ := hred
      refine ⟨hx, ?_⟩
      have ha := Int.emod_nonneg (-(y : Int)) (by omega : ((c.p : Nat) : Int) ≠ 0)
      have hb := Int.emod_lt_of_pos (-(y : Int)) hp0
      omega

theorem foldlM_double_add_ok {c : Curve} {p0 : Point} :
    ∀ (l : List Bool) (init R : Point), c.is_on_curve init = true →
    l.foldlM (fun current i =>
      c.double current >>= fun current =>
      if i then c.add current p0 else Except.ok current) init = Except.ok R →
    c.is_on_curve R = true ∧ (Reduced c init → Reduced c p0 → Reduced c R) := by
  intro l
  induction l with
  | nil =>
    intro init R hinit h
    rw [List.foldlM_nil] at h
    injection h with h
    subst h
    exact ⟨hinit, fun hr _ => hr⟩
  | cons b t ih =>
    intro init R hinit h
    rw [List.foldlM_cons] at h
    rcases bind_eq_ok h with ⟨cur, hcur, h2⟩
    rcases bind_eq_ok hcur with ⟨c2, hc2, h3⟩
    obtain ⟨hc2onc, hc2red⟩ := double_ok_on_curve hc2
    have hcurstep : c.is_on_curve cur = true ∧ (Reduced c p0 → Reduced c cur) := by
      cases b with
      | true =>
        rw [if_pos rfl] at h3
        obtain ⟨h4, h5⟩ := add_ok_on_curve h3
        exact ⟨h4, fun hp0 => h5 hc2red hp0⟩
      | false =>
        rw [if_neg (by simp)] at h3
        injection h3 with h3
        subst h3
        exact ⟨hc2onc, fun _ => hc2red⟩
    exact ⟨(ih cur R hcurstep.1 h2).1,
      fun _ hp0 => (ih cur R hcurstep.1 h2).2 (hcurstep.2 hp0) hp0⟩

theorem multiply_ok_on_curve_of_on_curve {c : Curve} {P R : Point} {k : Int}
    (hP : c.is_on_curve P = true) (h : c.multiply P k = Except.ok R) :
    c.is_on_curve R = true ∧ (Reduced c P → Reduced c R) := by
  unfold Curve.multiply at h
  split at h
  · injection h with h
    subst h
    exact ⟨rfl, fun _ => trivial⟩
  · rcases bind_eq_ok h with ⟨p0, hp0, h2⟩
    have hcc : c.is_on_curve p0 = true ∧ (Reduced c P → Reduced c p0) := by
      split at hp0
      · exact point_neg_ok_on_curve hP hp0
      · injection hp0 with hp0
        subst hp0
        exact ⟨hP, fun hp => hp⟩
    obtain ⟨h3, h4⟩ := foldlM_double_add_ok _ _ _ hcc.1 h2
    exact ⟨h3, fun hp => h4 (hcc.2 hp) (hcc.2 hp)⟩

/-- C3, amended: the claim holds with the phrase "(on the curve or not)"
removed for `multiply` — for a point `P` that is on `C` (and any points for
`add` and `double`, which check internally), every successful result of
`C.add`, `C.double` or `C.multiply` is on `C`.  As stated the claim is false:
`multiply(P, 1)` and `multiply(P, -1)` return the (negated) input point
without any check, silently yielding an off-curve point (see the
counterexample). -/
theorem C3_on_curve_amended (c : Curve) (P Q R : Point) (k : Int) :
    (c.add P Q = Except.ok R → c.is_on_curve R = true) ∧
    (c.double P = Except.ok R → c.is_on_curve R = true) ∧
    (c.is_on_curve P = true → c.multiply P k = Except.ok R → c.is_on_curve R = true) :=
  ⟨fun h => (add_ok_on_curve h).1, fun h => (double_ok_on_curve h).1,
    fun hP h => (multiply_ok_on_curve_of_on_curve hP h).1⟩

/-- Witness for C3 (amended): `3·G = (80, 87)` on the toy curve is on the
curve. -/
theorem C3_on_curve_amended_witness : toy.is_on_curve (Point.point 80 87) = true :=
  (C3_on_curve_amended toy (Point.point 3 6) Point.infinity (Point.point 80 87) 3).2.2
    (by decide) (by decide)

theorem int_gcd_prime_of_not_dvd {p : Nat} (hp : Nat.Prime p) {a : Int}
    (h : ¬ (p ∣ a.natAbs)) : Int.gcd a (p : Int) = 1 := by
  have h1 : Int.gcd a (p : Int) = Nat.gcd a.natAbs p := by
    simp [Int.gcd]
  rw [h1, Nat.gcd_comm]
  exact (Nat.Prime.coprime_iff_not_dvd hp).mpr h

theorem not_dvd_of_pos_of_lt {p m : Nat} (h1 : 0 < m) (h2 : m < p) : ¬ (p ∣ m) := by
  intro hd
  exact absurd (Nat.le_of_dvd h1 hd) (by omega)

theorem double_total {c : Curve} (hp : Nat.Prime c.p) (hp2 : c.p ≠ 2) {P : Point}
    (honc : c.is_on_curve P = true) (hred : Reduced c P) :
    ∃ R, c.double P = Except.ok R := by
  have hp1 : (1 : Int) < (c.p : Int) := by
    have := hp.two_le
    exact_mod_cast this
  cases P with
  | infinity => exact ⟨Point.infinity, rfl⟩
  | point x y =>
    unfold Curve.double
    rw [if_neg (by simp [honc])]
    dsimp only
    by_cases hy : (y : Int) = 0
    · rw [if_pos hy]
      exact ⟨Point.infinity, rfl⟩
    · rw [if_neg hy]
      obtain ⟨hxlt, hylt⟩ := hred
      have hyp : 0 < y := by
        rcases Nat.eq_zero_or_pos y with h0 | h
        · exact absurd (by exact_mod_cast congrArg (Nat.cast : Nat → Int) h0) hy
        · exact h
      have hnd : ¬ (c.p ∣ (2 * (y : Int)).natAbs) := by
        have habs : (2 * (y : Int)).natAbs = 2 * y := by
          simp [Int.natAbs_mul]
        rw [habs]
        intro hd
        rcases (Nat.Prime.dvd_mul hp).mp hd with h2 | hyd
        · have := Nat.le_of_dvd (by omega) h2
          have := hp.two_le
          omega
        · exact not_dvd_of_pos_of_lt hyp hylt hyd
      have hgcd := int_gcd_prime_of_not_dvd hp hnd
      obtain ⟨inv, hinv, _, _, _⟩ :=
        (mod_inv_char hp1 (by intro hc; apply hy; omega)).2 hgcd
      rw [hinv, ok_bind, get_mod_ok _ (by omega), ok_bind,
        get_mod_ok _ (by omega), ok_bind, get_mod_ok _ (by omega), ok_bind]
      exact ⟨_, rfl⟩

theorem point_neg_total (P : Point) {prime : Int} (hp : 0 < prime) :
    ∃ R, P.point_neg prime = Except.ok R := by
  cases P with
  | infinity => exact ⟨Point.infinity, rfl⟩
  | point x y =>
    unfold Point.point_neg
    dsimp only
    rw [get_mod_ok _ hp, ok_bind]
    exact ⟨_, rfl⟩

theorem add_total {c : Curve} (hp : Nat.Prime c.p) (hp2 : c.p ≠ 2) {P Q : Point}
    (hP : c.is_on_curve P = true) (hPred : Reduced c P)
    (hQ : c.is_on_curve Q = true) (hQred : Reduced c Q) :
    ∃ R, c.add P Q = Except.ok R := by
  have hp1 : (1 : Int) < (c.p : Int) := by
    have := hp.two_le
    exact_mod_cast this
  unfold Curve.add
  rw [if_neg (by simp [hP, hQ])]
  by_cases hpq : P = Q
  · rw [if_pos hpq]
    exact double_total hp hp2 hP hPred
  · rw [if_neg hpq]
    cases P with
    | infinity =>
      dsimp only
      exact ⟨Q, rfl⟩
    | point px py =>
      cases Q with
      | infinity =>
        dsimp only
        exact ⟨Point.point px py, rfl⟩
      | point qx qy =>
        dsimp only
        by_cases hx : px = qx
        · rw [if_pos hx]
          exact ⟨Point.infinity, rfl⟩
        · rw [if_neg hx]
          obtain ⟨hpxlt, _⟩ := hPred
          obtain ⟨hqxlt, _⟩ := hQred
          have hne : (px : Int) - (qx : Int) ≠ 0 := by
            intro hc
            apply hx
            omega
          have hnd : ¬ (c.p ∣ ((px : Int) - (qx : Int)).natAbs) := by
            apply not_dvd_of_pos_of_lt
            · omega
            · omega
          have hgcd := int_gcd_prime_of_not_dvd hp hnd
          obtain ⟨inv, hinv, _, _, _⟩ := (mod_inv_char hp1 hne).2 hgcd
          rw [hinv, ok_bind, get_mod_ok _ (by omega), ok_bind,
            get_mod_ok _ (by omega), ok_bind, get_mod_ok _ (by omega), ok_bind]
          exact ⟨_, rfl⟩

theorem foldlM_double_add_total {c : Curve} (hp : Nat.Prime c.p) (hp2 : c.p ≠ 2)
    {p0 : Point} (hp0 : c.is_on_curve p0 = true) (hp0red : Reduced c p0) :
    ∀ (l : List Bool) (init : Point), c.is_on_curve init = true → Reduced c init →
    ∃ R, l.foldlM (fun current i =>
      c.double current >>= fun current =>
      if i then c.add current p0 else Except.ok current) init = Except.ok R := by
  intro l
  induction l with
  | nil =>
    intro init h1 h2
    exact ⟨init, by rw [List.foldlM_nil]; rfl⟩
  | cons b t ih =>
    intro init h1 h2
    obtain ⟨c2, hc2⟩ := double_total hp hp2 h1 h2
    obtain ⟨hc2onc, hc2red⟩ := double_ok_on_curve hc2
    cases b with
    | true =>
      obtain ⟨c3, hc3⟩ := add_total hp hp2 hc2onc hc2red hp0 hp0red
      obtain ⟨hc3onc, hc3red'⟩ := add_ok_on_curve hc3
      obtain ⟨R, hR⟩ := ih c3 hc3onc (hc3red' hc2red hp0red)
      refine ⟨R, ?_⟩
      rw [List.foldlM_cons, hc2, ok_bind, if_pos rfl, hc3, ok_bind]
      exact hR
    | false =>
      obtain ⟨R, hR⟩ := ih c2 hc2onc hc2red
      refine ⟨R, ?_⟩
      rw [List.foldlM_cons, hc2, ok_bind, if_neg (by simp), ok_bind]
      exact hR

theorem multiply_total {c : Curve} (hp : Nat.Prime c.p) (hp2 : c.p ≠ 2) {P : Point}
    (honc : c.is_on_curve P = true) (hred : Reduced c P) (k : Int) :
    ∃ R, c.multiply P k = Except.ok R := by
  unfold Curve.multiply
  by_cases hk0 : k = 0
  · rw [if_pos hk0]
    exact ⟨Point.infinity, rfl⟩
  · rw [if_neg hk0]
    by_cases hneg : k < 0
    · rw [if_pos hneg]
      obtain ⟨p0, hpn⟩ := point_neg_total P
        (by exact_mod_cast hp.pos : (0 : Int) < (c.p : Int))
      obtain ⟨hp0onc, hp0red'⟩ := point_neg_ok_on_curve honc hpn
      obtain ⟨R, hR⟩ := foldlM_double_add_total hp hp2 hp0onc (hp0red' hred)
        ((rustBin k.natAbs).drop 1) p0 hp0onc (hp0red' hred)
      refine ⟨R, ?_⟩
      rw [hpn, ok_bind]
      exact hR
    · rw [if_neg hneg, ok_bind]
      exact foldlM_double_add_total hp hp2 honc hred
        ((rustBin k.natAbs).drop 1) P honc hred

/-- C8, amended.  `Signature::verify` indeed enforces no range precondition
`r, s ∈ [1, n)` — for every stored `r` (including `0` and values `≥ n`) and
every `s` coprime to `n` (including values `≥ n`), on a well-formed curve it
returns a boolean — but the original claim's tail is false twice over:
`s = 0` (and any `s` sharing a factor with `n`) makes `verify` return an
error, not a boolean, and an out-of-range `s` congruent to a valid one mod
`n` makes it return `true`, not `false` (see the counterexample). -/
theorem C8_no_range_enforcement_amended (sig : Signature) (message : String)
    (kind : InputType) (hash : Hash256)
    (hh : sha256 message kind = Except.ok hash)
    (hp : Nat.Prime sig.curve.p) (hp2 : sig.curve.p ≠ 2)
    (hn : 1 < sig.curve.n)
    (hg : sig.curve.is_on_curve sig.curve.g = true) (hgred : Reduced sig.curve sig.curve.g)
    (hq : sig.curve.is_on_curve sig.pub = true) (hqred : Reduced sig.curve sig.pub)
    (hs : Nat.gcd sig.s sig.curve.n = 1) :
    ∃ b : Bool, sig.verify message kind = Except.ok b := by
  have hn1 : (1 : Int) < (sig.curve.n : Int) := by exact_mod_cast hn
  have hs0 : (sig.s : Int) ≠ 0 := by
    intro hc
    have : sig.s = 0 := by exact_mod_cast hc
    rw [this] at hs
    simp at hs
    omega
  have hgcd : Int.gcd (sig.s : Int) (sig.curve.n : Int) = 1 := by
    simp [Int.gcd, hs]
  obtain ⟨w1, hw1, _, _, _⟩ := (mod_inv_char hn1 hs0).2 hgcd
  obtain ⟨P1, hP1⟩ := multiply_total hp hp2 hg hgred ((hashToNat hash : Int) * w1)
  obtain ⟨hP1onc, hP1red'⟩ := multiply_ok_on_curve_of_on_curve hg hP1
  obtain ⟨P2, hP2⟩ := multiply_total hp hp2 hq hqred (w1 * (sig.r : Int))
  obtain ⟨hP2onc, hP2red'⟩ := multiply_ok_on_curve_of_on_curve hq hP2
  obtain ⟨P3, hP3⟩ := add_total hp hp2 hP1onc (hP1red' hgred) hP2onc (hP2red' hqred)
  refine ⟨P3.get_x == some sig.r, ?_⟩
  unfold Signature.verify
  rw [hh]
  simp only [Except.mapError, ok_bind]
  rw [hw1]
  simp only [Except.mapError, ok_bind]
  rw [hP1]
  simp only [Except.mapError, ok_bind]
  rw [hP2]
  simp only [Except.mapError, ok_bind]
  rw [hP3]
  simp only [Except.mapError, ok_bind]

/-- Witness for C8 (amended) on the toy curve (`n = 5`): the signature
`(r, s) = (3, 7)` with `s = 7 ∉ [1, 5)` but `gcd(7, 5) = 1` gets a boolean
verdict. -/
theorem C8_no_range_enforcement_amended_witness :
    ∃ b : Bool, Signature.verify ⟨3, 7, toy, Point.point 3 6⟩ "" InputType.Text =
      Except.ok b :=
  C8_no_range_enforcement_amended ⟨3, 7, toy, Point.point 3 6⟩ "" InputType.Text
    ⟨"e3b0c44298fc1c149afbf4c8996fb92427ae41e4649b934ca495991b7852b855"⟩
    (by decide) (by rw [show toy.p = 97 from rfl]; norm_num) (by decide) (by decide)
    (by decide) (by exact ⟨by decide, by decide⟩) (by decide)
    (by exact ⟨by decide, by decide⟩) (by decide)

theorem Point_some_congr {F : Type} [Field F] {W : WeierstrassCurve.Affine F}
    {x₁ y₁ x₂ y₂ : F} (h₁ : W.Nonsingular x₁ y₁) (h₂ : W.Nonsingular x₂ y₂)
    (hx : x₁ = x₂) (hy : y₁ = y₂) :
    WeierstrassCurve.Affine.Point.some h₁ = WeierstrassCurve.Affine.Point.some h₂ := by
  subst hx
  subst hy
  rfl

theorem toW_equation_iff {c : Curve} (hpne : c.p ≠ 0) (x y : Nat) :
    (toW c).Equation ((x : ZMod c.p)) ((y : ZMod c.p)) ↔
      c.is_on_curve (Point.point x y) = true := by
  rw [WeierstrassCurve.Affine.equation_iff, is_on_curve_iff hpne]
  constructor
  · intro h
    simp only [toW] at h
    linear_combination h
  · intro h
    simp only [toW]
    linear_combination h

theorem natCast_zmod_inj {p : Nat} (hp : p ≠ 0) {a b : Nat} (ha : a < p) (hb : b < p)
    (h : ((a : ZMod p)) = ((b : ZMod p))) : a = b := by
  haveI : NeZero p := ⟨hp⟩
  have := congrArg ZMod.val h
  rwa [ZMod.val_cast_of_lt ha, ZMod.val_cast_of_lt hb] at this

theorem toW_Δ_ne_zero {c : Curve} [Fact (Nat.Prime c.p)] (hp2 : c.p ≠ 2)
    (hΔ : ¬ ((c.p : Int) ∣ (4 * c.a ^ 3 + 27 * c.b ^ 2))) : (toW c).Δ ≠ 0 := by
  have hΔval : (toW c).Δ
      = -16 * (((4 * c.a ^ 3 + 27 * c.b ^ 2 : Int)) : ZMod c.p) := by
    simp only [WeierstrassCurve.Δ, WeierstrassCurve.b₂, WeierstrassCurve.b₄,
      WeierstrassCurve.b₆, WeierstrassCurve.b₈, toW]
    push_cast
    ring
  rw [hΔval]
  intro hzero
  rcases mul_eq_zero.mp hzero with h16 | hc
  · have h16' : ((16 : Nat) : ZMod c.p) = 0 := by
      have : (16 : ZMod c.p) = 0 := by
        have := neg_eq_zero.mp h16
        exact_mod_cast this
      exact_mod_cast this
    rw [ZMod.natCast_zmod_eq_zero_iff_dvd] at h16'
    have hpp : Nat.Prime c.p := Fact.out
    have : c.p ∣ 2 := hpp.dvd_of_dvd_pow (n := 4) (by norm_num at h16' ⊢; exact h16')
    have := Nat.le_of_dvd (by omega) this
    have := hpp.two_le
    omega
  · rw [ZMod.intCast_zmod_eq_zero_iff_dvd] at hc
    exact hΔ hc

theorem toW_nonsingular {c : Curve} [Fact (Nat.Prime c.p)] (hp2 : c.p ≠ 2)
    (hΔ : ¬ ((c.p : Int) ∣ (4 * c.a ^ 3 + 27 * c.b ^ 2))) {x y : Nat}
    (h : c.is_on_curve (Point.point x y) = true) :
    (toW c).Nonsingular ((x : ZMod c.p)) ((y : ZMod c.p)) := by
  have hpne : c.p ≠ 0 := by
    have := (Fact.out : Nat.Prime c.p).two_le
    omega
  exact (toW c).nonsingular_of_Δ_ne_zero
    ((toW_equation_iff hpne x y).mpr h) (toW_Δ_ne_zero hp2 hΔ)

theorem PtRel_unique {c : Curve} {P : Point} {P' P'' : (toW c).Point}
    (h1 : PtRel c P P') (h2 : PtRel c P P'') : P' = P'' := by
  cases h1 with
  | inf =>
    cases h2 with
    | inf => rfl
  | fin x y h =>
    cases h2 with
    | fin x' y' h' => exact congrArg _ (Subsingleton.elim h h')

theorem PtRel_inj {c : Curve} (hpne : c.p ≠ 0) {P Q : Point}
    {P' Q' : (toW c).Point} (h1 : PtRel c P P') (h2 : PtRel c Q Q')
    (hPred : Reduced c P) (hQred : Reduced c Q) (heq : P' = Q') : P = Q := by
  cases h1 with
  | inf =>
    cases h2 with
    | inf => rfl
    | fin x y h =>
      exact absurd heq.symm (WeierstrassCurve.Affine.Point.some_ne_zero h)
  | fin x y h =>
    cases h2 with
    | inf => exact absurd heq (WeierstrassCurve.Affine.Point.some_ne_zero h)
    | fin x' y' h' =>
      obtain ⟨hx1, hy1⟩ := hPred
      obtain ⟨hx2, hy2⟩ := hQred
      injection heq with hx hy
      rw [natCast_zmod_inj hpne hx1 hx2 hx, natCast_zmod_inj hpne hy1 hy2 hy]

theorem two_zmod_ne_zero {c : Curve} [Fact (Nat.Prime c.p)] (hp2 : c.p ≠ 2) :
    ((2 : ZMod c.p)) ≠ 0 := by
  intro hcon
  have h2 : ((2 : Nat) : ZMod c.p) = 0 := by exact_mod_cast hcon
  rw [ZMod.natCast_zmod_eq_zero_iff_dvd] at h2
  have hpp : Nat.Prime c.p := Fact.out
  have := Nat.le_of_dvd (by omega) h2
  have := hpp.two_le
  omega

theorem double_bridge {c : Curve} [Fact (Nat.Prime c.p)] (hp2 : c.p ≠ 2)
    (hΔ : ¬ ((c.p : Int) ∣ (4 * c.a ^ 3 + 27 * c.b ^ 2)))
    {P R : Point} {P' : (toW c).Point}
    (hrel : PtRel c P P') (hPred : Reduced c P)
    (h : c.double P = Except.ok R) : PtRel c R (P' + P') := by
  have hpne : c.p ≠ 0 := by
    have := (Fact.out : Nat.Prime c.p).two_le
    omega
  cases hrel with
  | inf =>
    have hinf : c.double Point.infinity = Except.ok Point.infinity := rfl
    rw [hinf] at h
    injection h with h
    subst h
    rw [add_zero]
    exact PtRel.inf
  | fin x y hns =>
    obtain ⟨hxlt, hylt⟩ := hPred
    have honc : c.is_on_curve (Point.point x y) = true :=
      (toW_equation_iff hpne x y).mp hns.1
    have hRoc := double_ok_on_curve h
    unfold Curve.double at h
    rw [if_neg (by simp [honc])] at h
    dsimp only at h
    split at h
    · rename_i hy0
      injection h with h
      subst h
      have hyzero : y = 0 := by exact_mod_cast hy0
      have hyeq : ((y : Nat) : ZMod c.p) = (toW c).negY ((x : Nat) : ZMod c.p)
          ((y : Nat) : ZMod c.p) := by
        simp only [toW, WeierstrassCurve.Affine.negY, hyzero]
        norm_num
      rw [WeierstrassCurve.Affine.Point.add_self_of_Y_eq hyeq]
      exact PtRel.inf
    · rename_i hy0
      rcases bind_eq_ok h with ⟨inv, hinv, h2⟩
      rcases bind_eq_ok h2 with ⟨slope, hslope, h3⟩
      rcases bind_eq_ok h3 with ⟨x1, hx1, h4⟩
      rcases bind_eq_ok h4 with ⟨y1, hy1, h5⟩
      injection h5 with h5
      subst h5
      have hp0 : (0 : Int) < (c.p : Int) := by
        have := (Fact.out : Nat.Prime c.p).two_le
        omega
    /- extract the defining equations of the intermediate values -/
      obtain ⟨hia, hib, hiinv, hp1⟩ := mod_inv_ok_inverse hp0 hinv
      rw [get_mod_ok _ hp0] at hslope hx1 hy1
      injection hslope with hslope
      injection hx1 with hx1
      injection hy1 with hy1
      have h1p : (1 : Int) % (c.p : Int) = 1 := Int.emod_eq_of_lt (by omega) (by omega)
      have hHUV : ((inv : Int) : ZMod c.p) * (2 * ((y : Nat) : ZMod c.p)) = 1 := by
        have hcast : ((inv * (2 * (y : Int)) : Int) : ZMod c.p)
            = (((1 : Int)) : ZMod c.p) := by
          rw [ZMod.intCast_eq_intCast_iff', hiinv, h1p]
        push_cast at hcast
        linear_combination hcast
      have hYne : ((y : Nat) : ZMod c.p) ≠ 0 := by
        intro hcon
        apply hy0
        have : ((y : Nat) : ZMod c.p) = ((0 : Nat) : ZMod c.p) := by
          rw [hcon]
          norm_num
        have := natCast_zmod_inj hpne hylt (by omega) this
        omega
      have h2Y : (2 : ZMod c.p) * ((y : Nat) : ZMod c.p) ≠ 0 := by
        intro hcon
        rcases mul_eq_zero.mp hcon with hcc | hcc
        · exact two_zmod_ne_zero hp2 hcc
        · exact hYne hcc
      have hyne : ((y : Nat) : ZMod c.p) ≠ (toW c).negY ((x : Nat) : ZMod c.p)
          ((y : Nat) : ZMod c.p) := by
        intro hcon
        apply h2Y
        simp only [toW, WeierstrassCurve.Affine.negY] at hcon
        linear_combination hcon
      have hDne : ((y : Nat) : ZMod c.p) - (toW c).negY ((x : Nat) : ZMod c.p)
          ((y : Nat) : ZMod c.p) ≠ 0 := sub_ne_zero_of_ne hyne
      have hslopeZ : ((slope : Int) : ZMod c.p)
          = (toW c).slope ((x : Nat) : ZMod c.p) ((x : Nat) : ZMod c.p)
            ((y : Nat) : ZMod c.p) ((y : Nat) : ZMod c.p) := by
        rw [WeierstrassCurve.Affine.slope_of_Y_ne rfl hyne, ← hslope, intCast_emod_zmod]
        push_cast
        rw [eq_div_iff hDne]
        simp only [toW, WeierstrassCurve.Affine.negY]
        linear_combination (((x : Nat) : ZMod c.p) ^ 2 * 3 + ((c.a : Int) : ZMod c.p)) * hHUV
      have hx1nn : 0 ≤ x1 := hx1 ▸ Int.emod_nonneg _ (by omega)
      have hy1nn : 0 ≤ y1 := hy1 ▸ Int.emod_nonneg _ (by omega)
      have hxeq : ((x1.toNat : Nat) : ZMod c.p)
          = (toW c).addX ((x : Nat) : ZMod c.p) ((x : Nat) : ZMod c.p)
            ((toW c).slope ((x : Nat) : ZMod c.p) ((x : Nat) : ZMod c.p)
              ((y : Nat) : ZMod c.p) ((y : Nat) : ZMod c.p)) := by
        rw [natCast_toNat_zmod hx1nn, ← hx1, intCast_emod_zmod]
        push_cast
        rw [hslopeZ]
        simp only [toW, WeierstrassCurve.Affine.addX]
        ring
      have hx1Z : ((x1 : Int) : ZMod c.p)
          = (toW c).addX ((x : Nat) : ZMod c.p) ((x : Nat) : ZMod c.p)
            ((toW c).slope ((x : Nat) : ZMod c.p) ((x : Nat) : ZMod c.p)
              ((y : Nat) : ZMod c.p) ((y : Nat) : ZMod c.p)) := by
        rw [← natCast_toNat_zmod hx1nn]
        exact hxeq
      have hyeq : ((y1.toNat : Nat) : ZMod c.p)
          = (toW c).addY ((x : Nat) : ZMod c.p) ((x : Nat) : ZMod c.p)
            ((y : Nat) : ZMod c.p)
            ((toW c).slope ((x : Nat) : ZMod c.p) ((x : Nat) : ZMod c.p)
              ((y : Nat) : ZMod c.p) ((y : Nat) : ZMod c.p)) := by
        rw [natCast_toNat_zmod hy1nn, ← hy1, intCast_emod_zmod]
        push_cast
        rw [hslopeZ, hx1Z]
        simp only [toW, WeierstrassCurve.Affine.addY, WeierstrassCurve.Affine.negAddY,
          WeierstrassCurve.Affine.addX, WeierstrassCurve.Affine.negY]
        ring
      have hRns : (toW c).Nonsingular ((x1.toNat : Nat) : ZMod c.p)
          ((y1.toNat : Nat) : ZMod c.p) := toW_nonsingular hp2 hΔ hRoc.1
      rw [WeierstrassCurve.Affine.Point.add_self_of_Y_ne hyne]
      have hcongr := Point_some_congr hRns
        (WeierstrassCurve.Affine.nonsingular_add hns hns (fun _ => hyne)) hxeq hyeq
      rw [← hcongr]
      exact PtRel.fin _ _ hRns

theorem add_bridge {c : Curve} [Fact (Nat.Prime c.p)] (hp2 : c.p ≠ 2)
    (hΔ : ¬ ((c.p : Int) ∣ (4 * c.a ^ 3 + 27 * c.b ^ 2)))
    {P Q R : Point} {P' Q' : (toW c).Point}
    (hrelP : PtRel c P P') (hPred : Reduced c P)
    (hrelQ : PtRel c Q Q') (hQred : Reduced c Q)
    (h : c.add P Q = Except.ok R) : PtRel c R (P' + Q') := by
  have hpne : c.p ≠ 0 := by
    have := (Fact.out : Nat.Prime c.p).two_le
    omega
  have hp0 : (0 : Int) < (c.p : Int) := by
    have := (Fact.out : Nat.Prime c.p).two_le
    omega
  have hRoc := add_ok_on_curve h
  unfold Curve.add at h
  split at h
  · cases h
  · rename_i honcs
    rw [not_not] at honcs
    obtain ⟨hPonc, hQonc⟩ := honcs
    split at h
    · rename_i hpq
      subst hpq
      have huniq := PtRel_unique hrelP hrelQ
      rw [← huniq]
      exact double_bridge hp2 hΔ hrelP hPred h
    · rename_i hpq
      cases hrelP with
      | inf =>
        dsimp only at h
        injection h with h
        subst h
        rw [zero_add]
        exact hrelQ
      | fin px py hns1 =>
        cases hrelQ with
        | inf =>
          dsimp only at h
          injection h with h
          subst h
          rw [add_zero]
          exact PtRel.fin _ _ hns1
        | fin qx qy hns2 =>
          obtain ⟨hpxlt, hpylt⟩ := hPred
          obtain ⟨hqxlt, hqylt⟩ := hQred
          dsimp only at h
          split at h
          · rename_i hx
            injection h with h
            subst h
            subst hx
            have hyne : py ≠ qy := by
              intro hcon
              exact hpq (by rw [hcon])
            have hE1 := (is_on_curve_iff hpne px py).mp hPonc
            have hE2 := (is_on_curve_iff hpne px qy).mp hQonc
            have hfac : (((py : Nat) : ZMod c.p) - ((qy : Nat) : ZMod c.p))
                * (((py : Nat) : ZMod c.p) + ((qy : Nat) : ZMod c.p)) = 0 := by
              linear_combination hE1 - hE2
            have hyneg : ((py : Nat) : ZMod c.p)
                = (toW c).negY ((px : Nat) : ZMod c.p) ((qy : Nat) : ZMod c.p) := by
              rcases mul_eq_zero.mp hfac with hcc | hcc
              · exfalso
                apply hyne
                exact natCast_zmod_inj hpne hpylt hqylt (by linear_combination hcc)
              · simp only [toW, WeierstrassCurve.Affine.negY]
                linear_combination hcc
            rw [WeierstrassCurve.Affine.Point.add_of_Y_eq rfl hyneg]
            exact PtRel.inf
          · rename_i hx
            rcases bind_eq_ok h with ⟨inv, hinv, h2⟩
            rcases bind_eq_ok h2 with ⟨slope, hslope, h3⟩
            rcases bind_eq_ok h3 with ⟨x1, hx1, h4⟩
            rcases bind_eq_ok h4 with ⟨y1, hy1, h5⟩
            injection h5 with h5
            subst h5
            obtain ⟨hia, hib, hiinv, hp1⟩ := mod_inv_ok_inverse hp0 hinv
            rw [get_mod_ok _ hp0] at hslope hx1 hy1
            injection hslope with hslope
            injection hx1 with hx1
            injection hy1 with hy1
            have hXne : ((px : Nat) : ZMod c.p) ≠ ((qx : Nat) : ZMod c.p) := by
              intro hcon
              exact hx (natCast_zmod_inj hpne hpxlt hqxlt hcon)
            have h1p : (1 : Int) % (c.p : Int) = 1 :=
              Int.emod_eq_of_lt (by omega) (by omega)
            have hHUV : ((inv : Int) : ZMod c.p)
                * (((px : Nat) : ZMod c.p) - ((qx : Nat) : ZMod c.p)) = 1 := by
              have hcast : ((inv * ((px : Int) - (qx : Int)) : Int) : ZMod c.p)
                  = (((1 : Int)) : ZMod c.p) := by
                rw [ZMod.intCast_eq_intCast_iff', hiinv, h1p]
              push_cast at hcast
              linear_combination hcast
            have hslopeZ : ((slope : Int) : ZMod c.p)
                = (toW c).slope ((px : Nat) : ZMod c.p) ((qx : Nat) : ZMod c.p)
                  ((py : Nat) : ZMod c.p) ((qy : Nat) : ZMod c.p) := by
              rw [WeierstrassCurve.Affine.slope_of_X_ne hXne, ← hslope, intCast_emod_zmod]
              push_cast
              rw [eq_div_iff (sub_ne_zero_of_ne hXne)]
              linear_combination (((py : Nat) : ZMod c.p) - ((qy : Nat) : ZMod c.p)) * hHUV
            have hx1nn : 0 ≤ x1 := hx1 ▸ Int.emod_nonneg _ (by omega)
            have hy1nn : 0 ≤ y1 := hy1 ▸ Int.emod_nonneg _ (by omega)
            have hxeq : ((x1.toNat : Nat) : ZMod c.p)
                = (toW c).addX ((px : Nat) : ZMod c.p) ((qx : Nat) : ZMod c.p)
                  ((toW c).slope ((px : Nat) : ZMod c.p) ((qx : Nat) : ZMod c.p)
                    ((py : Nat) : ZMod c.p) ((qy : Nat) : ZMod c.p)) := by
              rw [natCast_toNat_zmod hx1nn, ← hx1, intCast_emod_zmod]
              push_cast
              rw [hslopeZ]
              simp only [toW, WeierstrassCurve.Affine.addX]
              ring
            have hx1Z : ((x1 : Int) : ZMod c.p)
                = (toW c).addX ((px : Nat) : ZMod c.p) ((qx : Nat) : ZMod c.p)
                  ((toW c).slope ((px : Nat) : ZMod c.p) ((qx : Nat) : ZMod c.p)
                    ((py : Nat) : ZMod c.p) ((qy : Nat) : ZMod c.p)) := by
              rw [← natCast_toNat_zmod hx1nn]
              exact hxeq
            have hyeq : ((y1.toNat : Nat) : ZMod c.p)
                = (toW c).addY ((px : Nat) : ZMod c.p) ((qx : Nat) : ZMod c.p)
                  ((py : Nat) : ZMod c.p)
                  ((toW c).slope ((px : Nat) : ZMod c.p) ((qx : Nat) : ZMod c.p)
                    ((py : Nat) : ZMod c.p) ((qy : Nat) : ZMod c.p)) := by
              rw [natCast_toNat_zmod hy1nn, ← hy1, intCast_emod_zmod]
              push_cast
              rw [hslopeZ, hx1Z]
              simp only [toW, WeierstrassCurve.Affine.addY,
                WeierstrassCurve.Affine.negAddY, WeierstrassCurve.Affine.addX,
                WeierstrassCurve.Affine.negY]
              ring
            have hRns : (toW c).Nonsingular ((x1.toNat : Nat) : ZMod c.p)
                ((y1.toNat : Nat) : ZMod c.p) := toW_nonsingular hp2 hΔ hRoc.1
            rw [WeierstrassCurve.Affine.Point.add_of_X_ne hXne]
            have hcongr := Point_some_congr hRns
              (WeierstrassCurve.Affine.nonsingular_add hns1 hns2
                (fun hh => (hXne hh).elim)) hxeq hyeq
            rw [← hcongr]
            exact PtRel.fin _ _ hRns

theorem natBitsAux_head : ∀ (fuel n : Nat), n ≠ 0 → n ≤ fuel →
    ∃ t, natBitsAux fuel n = true :: t := by
  intro fuel
  induction fuel with
  | zero =>
    intro n h1 h2
    omega
  | succ fuel ih =>
    intro n h1 h2
    unfold natBitsAux
    rw [if_neg h1]
    by_cases h2' : n / 2 = 0
    · have hn1 : n = 1 := by omega
      subst hn1
      have hz : natBitsAux fuel (1 / 2) = [] := by
        cases fuel with
        | zero => rfl
        | succ fuel => rfl
      exact ⟨[], by rw [hz]; rfl⟩
    · obtain ⟨t, ht⟩ := ih (n / 2) h2' (by omega)
      exact ⟨t ++ [n % 2 == 1], by rw [ht]; rfl⟩

theorem natBits_head {n : Nat} (hn : n ≠ 0) : ∃ t, natBits n = true :: t :=
  natBitsAux_head n n hn (le_refl n)

theorem foldlM_bridge {c : Curve} [Fact (Nat.Prime c.p)] (hp2 : c.p ≠ 2)
    (hΔ : ¬ ((c.p : Int) ∣ (4 * c.a ^ 3 + 27 * c.b ^ 2)))
    {p0 : Point} {P0 : (toW c).Point} (hrel0 : PtRel c p0 P0) (hred0 : Reduced c p0) :
    ∀ (l : List Bool) (init : Point) (v : Nat) (R : Point),
    PtRel c init (v • P0) → Reduced c init →
    l.foldlM (fun current i =>
      c.double current >>= fun current =>
      if i then c.add current p0 else Except.ok current) init = Except.ok R →
    PtRel c R ((l.foldl (fun acc b => 2 * acc + (if b then 1 else 0)) v) • P0) := by
  intro l
  induction l with
  | nil =>
    intro init v R hrel hred h
    rw [List.foldlM_nil] at h
    injection h with h
    subst h
    exact hrel
  | cons b t ih =>
    intro init v R hrel hred h
    rw [List.foldlM_cons] at h
    rcases bind_eq_ok h with ⟨cur, hcur, h2⟩
    rcases bind_eq_ok hcur with ⟨c2, hc2, h3⟩
    have hc2rel : PtRel c c2 ((2 * v) • P0) := by
      have htwo : (2 * v) • P0 = v • P0 + v • P0 := by
        rw [two_mul, add_nsmul]
      rw [htwo]
      exact double_bridge hp2 hΔ hrel hred hc2
    have hc2red : Reduced c c2 := (double_ok_on_curve hc2).2
    cases b with
    | true =>
      rw [if_pos rfl] at h3
      have hc3rel : PtRel c cur ((2 * v + 1) • P0) := by
        have hsucc : (2 * v + 1) • P0 = (2 * v) • P0 + P0 := by
          rw [succ_nsmul]
        rw [hsucc]
        exact add_bridge hp2 hΔ hc2rel hc2red hrel0 hred0 h3
      have hcred : Reduced c cur := (add_ok_on_curve h3).2 hc2red hred0
      have hres := ih cur (2 * v + 1) R hc3rel hcred h2
      rw [List.foldl_cons]
      rw [show (2 * v + if (true : Bool) = true then 1 else 0) = 2 * v + 1 from rfl]
      exact hres
    | false =>
      rw [if_neg (by simp)] at h3
      injection h3 with h3
      subst h3
      have hres := ih c2 (2 * v) R hc2rel hc2red h2
      rw [List.foldl_cons]
      rw [show (2 * v + if (false : Bool) = true then 1 else 0) = 2 * v from rfl]
      exact hres

theorem multiply_bridge {c : Curve} [Fact (Nat.Prime c.p)] (hp2 : c.p ≠ 2)
    (hΔ : ¬ ((c.p : Int) ∣ (4 * c.a ^ 3 + 27 * c.b ^ 2)))
    {P R : Point} {P' : (toW c).Point}
    (hrel : PtRel c P P') (hred : Reduced c P) (k : Nat)
    (h : c.multiply P ((k : Nat) : Int) = Except.ok R) :
    PtRel c R (k • P') := by
  unfold Curve.multiply at h
  by_cases hk0 : k = 0
  · subst hk0
    rw [if_pos (show ((0 : Nat) : Int) = 0 from rfl)] at h
    injection h with h
    subst h
    rw [zero_nsmul]
    exact PtRel.inf
  · rw [if_neg (by exact_mod_cast hk0), if_neg (by
      simp [not_lt, Int.natCast_nonneg]), ok_bind] at h
    rw [show ((k : Nat) : Int).natAbs = k from Int.natAbs_ofNat k] at h
    unfold rustBin at h
    rw [if_neg hk0] at h
    obtain ⟨t, ht⟩ := natBits_head hk0
    rw [ht] at h
    simp only [List.drop_succ_cons, List.drop_zero] at h
    have hres := foldlM_bridge hp2 hΔ hrel hred t P 1 R
      (by rw [one_nsmul]; exact hrel) hred h
    have hv : List.foldl (fun acc b => 2 * acc + (if b then 1 else 0)) 1 t = k := by
      have h0 : List.foldl (fun acc b => 2 * acc + (if b then 1 else 0)) 1 t
          = bitsToNat (true :: t) := rfl
      rw [h0, ← ht]
      exact bitsToNat_natBits k
    rw [hv] at hres
    exact hres

theorem PtRel_exists {c : Curve} [Fact (Nat.Prime c.p)] (hp2 : c.p ≠ 2)
    (hΔ : ¬ ((c.p : Int) ∣ (4 * c.a ^ 3 + 27 * c.b ^ 2))) {P : Point}
    (honc : c.is_on_curve P = true) : ∃ P', PtRel c P P' := by
  cases P with
  | infinity => exact ⟨0, PtRel.inf⟩
  | point x y => exact ⟨_, PtRel.fin x y (toW_nonsingular hp2 hΔ honc)⟩

theorem nsmul_mod_order {c : Curve} [Fact (Nat.Prime c.p)] {G' : (toW c).Point}
    (hord : c.n • G' = 0) (m : Nat) : m • G' = (m % c.n) • G' := by
  conv_lhs => rw [← Nat.div_add_mod m c.n]
  rw [add_nsmul, mul_nsmul, hord, nsmul_zero, zero_add]

theorem nsmul_eq_of_cast_eq {c : Curve} [Fact (Nat.Prime c.p)] {G' : (toW c).Point}
    (hord : c.n • G' = 0) {a b : Nat}
    (hab : ((a : ZMod c.n)) = ((b : ZMod c.n))) : a • G' = b • G' := by
  rw [nsmul_mod_order hord a, nsmul_mod_order hord b]
  have h := (ZMod.natCast_eq_natCast_iff a b c.n).mp hab
  rw [Nat.ModEq] at h
  rw [h]

/-- C1, amended.  On a well-formed curve (`p` an odd prime, `n` prime,
nonsingular, generator reduced and on the curve, of order dividing `n`), for
every valid key pair `(k, Q)`, every message with its input kind, and every
nonce `z ∈ [1, n)` for which the produced signature has `s ≠ 0` and the
`x`-coordinate of `z·G` is below `n` (so that the `r` stored reduced mod `n`
equals the unreduced coordinate that `verify` compares against), signing and
then verifying returns `true`.  As stated the claim is false: the
counterexample exhibits a valid curve, key pair and nonce where verify
returns `false` (because `sign` reduces `r = (z·G).x mod n` but `verify`
compares the unreduced `P₃.x` with `r`) and another message where it returns
a `DivisionByZero` error (because `s = 0` is produced and not rejected). -/
theorem C1_sign_then_verify_amended
    (c : Curve) (k z X Y : Nat) (kp : KeyPair) (msg : String) (kind : InputType)
    (hash : Hash256) (sig : Signature)
    (hp : Nat.Prime c.p) (hp2 : c.p ≠ 2)
    (hnp : Nat.Prime c.n)
    (hΔ : ¬ ((c.p : Int) ∣ (4 * c.a ^ 3 + 27 * c.b ^ 2)))
    (hg : c.is_on_curve c.g = true) (hgred : Reduced c c.g)
    (hord : c.multiply c.g ((c.n : Nat) : Int) = Except.ok Point.infinity)
    (hkp : KeyPair.new k c = Except.ok kp)
    (hz : 0 < z) (hzn : z < c.n)
    (hh : sha256 msg kind = Except.ok hash)
    (hzg : c.multiply c.g ((z : Nat) : Int) = Except.ok (Point.point X Y))
    (hXn : X < c.n)
    (hsig : kp.sign msg kind ((z : Nat) : Int) = Except.ok sig)
    (hs0 : sig.s ≠ 0) :
    sig.verify msg kind = Except.ok true := by
  haveI : Fact (Nat.Prime c.p) := ⟨hp⟩
  have hpne : c.p ≠ 0 := by
    have := hp.two_le
    omega
  have hn1 : 1 < c.n := hnp.one_lt
  have hn0 : (0 : Int) < ((c.n : Nat) : Int) := by exact_mod_cast hnp.pos
  have hn1' : (1 : Int) < ((c.n : Nat) : Int) := by exact_mod_cast hn1
  have hq1 : (1 : Int) % ((c.n : Nat) : Int) = 1 :=
    Int.emod_eq_of_lt (by omega) (by omega)
    /- unfold the successful run of KeyPair.new -/
  unfold KeyPair.new at hkp
  by_cases hkrange : k = 0 ∨ c.n ≤ k
  · rw [if_pos hkrange] at hkp
    cases hkp
  · rw [if_neg hkrange] at hkp
    rcases bind_eq_ok hkp with ⟨pb, hpb, hkp2⟩
    injection hkp2 with hkp2
    subst hkp2
    have hpbfacts := multiply_ok_on_curve_of_on_curve hg hpb
    have hpbonc := hpbfacts.1
    have hpbred := hpbfacts.2 hgred
    /- the bridge to the Mathlib curve -/
    obtain ⟨G', hGrel⟩ := PtRel_exists hp2 hΔ hg
    have hordG : c.n • G' = 0 :=
      PtRel_unique (multiply_bridge hp2 hΔ hGrel hgred c.n hord) PtRel.inf
    have hzgrel : PtRel c (Point.point X Y) (z • G') :=
      multiply_bridge hp2 hΔ hGrel hgred z hzg
    have hzgfacts := multiply_ok_on_curve_of_on_curve hg hzg
    have hzgred : Reduced c (Point.point X Y) := hzgfacts.2 hgred
    have hpbrel : PtRel c pb (k • G') :=
      multiply_bridge hp2 hΔ hGrel hgred k hpb
    /- unfold the successful run of sign, determining the signature -/
    unfold KeyPair.sign at hsig
    dsimp only at hsig
    rw [hh] at hsig
    simp only [Except.mapError, ok_bind] at hsig
    rw [hzg] at hsig
    simp only [Except.mapError, ok_bind, Point.get_x] at hsig
    rw [get_mod_ok _ hn0] at hsig
    simp only [Except.mapError, ok_bind] at hsig
    have hXmod : ((X : Nat) : Int) % ((c.n : Nat) : Int) = ((X : Nat) : Int) :=
      Int.emod_eq_of_lt (Int.natCast_nonneg X) (by exact_mod_cast hXn)
    rw [hXmod] at hsig
    have hzne : ((z : Nat) : Int) ≠ 0 := by
      have : z ≠ 0 := by omega
      exact_mod_cast this
    have hgcdz : Int.gcd ((z : Nat) : Int) ((c.n : Nat) : Int) = 1 := by
      apply int_gcd_prime_of_not_dvd hnp
      rw [Int.natAbs_ofNat]
      exact not_dvd_of_pos_of_lt hz hzn
    obtain ⟨ni, hni, hni0, hniLt, hniinv⟩ := (mod_inv_char hn1' hzne).2 hgcdz
    rw [hni] at hsig
    simp only [Except.mapError, ok_bind] at hsig
    rw [get_mod_ok _ hn0] at hsig
    simp only [Except.mapError, ok_bind] at hsig
    rw [show ((X : Nat) : Int).toNat = X from rfl] at hsig
    injection hsig with hsig
    subst hsig
    dsimp only at hs0
    /- facts about the signature scalar s -/
    have hsnn : 0 ≤ (ni * ((hashToNat hash : Int) + ((k : Nat) : Int) * ((X : Nat) : Int)))
        % ((c.n : Nat) : Int) := Int.emod_nonneg _ (by omega)
    have hslt : (ni * ((hashToNat hash : Int) + ((k : Nat) : Int) * ((X : Nat) : Int)))
        % ((c.n : Nat) : Int) < ((c.n : Nat) : Int) := Int.emod_lt_of_pos _ hn0
    have hsne : (ni * ((hashToNat hash : Int) + ((k : Nat) : Int) * ((X : Nat) : Int)))
        % ((c.n : Nat) : Int) ≠ 0 := by
      intro hc
      apply hs0
      rw [hc]
      rfl
    have hgcds : Int.gcd ((ni * ((hashToNat hash : Int)
        + ((k : Nat) : Int) * ((X : Nat) : Int))) % ((c.n : Nat) : Int))
        ((c.n : Nat) : Int) = 1 := by
      apply int_gcd_prime_of_not_dvd hnp
      intro hd
      have hd2 : ((c.n : Nat) : Int) ∣ ((ni * ((hashToNat hash : Int)
          + ((k : Nat) : Int) * ((X : Nat) : Int))) % ((c.n : Nat) : Int)) := by
        have := Int.natCast_dvd_natCast.mpr hd
        rwa [Int.natAbs_of_nonneg hsnn] at this
      have := Int.le_of_dvd (by omega) hd2
      omega
    obtain ⟨w, hw, hw0, hwlt, hwinv⟩ := (mod_inv_char hn1' hsne).2 hgcds
    /- run verify forward -/
    unfold Signature.verify
    dsimp only
    rw [hh]
    simp only [Except.mapError, ok_bind]
    rw [show (((ni * ((hashToNat hash : Int) + ((k : Nat) : Int) * ((X : Nat) : Int)))
      % ((c.n : Nat) : Int)).toNat : Int)
      = (ni * ((hashToNat hash : Int) + ((k : Nat) : Int) * ((X : Nat) : Int)))
        % ((c.n : Nat) : Int) from Int.toNat_of_nonneg hsnn]
    rw [hw]
    simp only [Except.mapError, ok_bind]
    obtain ⟨P1, hP1⟩ := multiply_total hp hp2 hg hgred ((hashToNat hash : Int) * w)
    rw [hP1]
    simp only [Except.mapError, ok_bind]
    obtain ⟨P2, hP2⟩ := multiply_total hp hp2 hpbonc hpbred (w * ((X : Nat) : Int))
    rw [hP2]
    simp only [Except.mapError, ok_bind]
    have hP1facts := multiply_ok_on_curve_of_on_curve hg hP1
    have hP2facts := multiply_ok_on_curve_of_on_curve hpbonc hP2
    obtain ⟨P3, hP3⟩ := add_total hp hp2 hP1facts.1 (hP1facts.2 hgred)
      hP2facts.1 (hP2facts.2 hpbred)
    rw [hP3]
    simp only [Except.mapError, ok_bind]
    /- bridge the three points -/
    have hP1rel : PtRel c P1 ((hashToNat hash * w.toNat) • G') := by
      rw [show (hashToNat hash : Int) * w = ((hashToNat hash * w.toNat : Nat) : Int) by
        push_cast [Int.toNat_of_nonneg hw0]
        ring] at hP1
      exact multiply_bridge hp2 hΔ hGrel hgred _ hP1
    have hP2rel : PtRel c P2 ((k * (w.toNat * X)) • G') := by
      rw [show w * ((X : Nat) : Int) = ((w.toNat * X : Nat) : Int) by
        push_cast [Int.toNat_of_nonneg hw0]
        ring] at hP2
      have h0 := multiply_bridge hp2 hΔ hpbrel hpbred (w.toNat * X) hP2
      rwa [← mul_nsmul] at h0
    have hP3rel : PtRel c P3 ((hashToNat hash * w.toNat + k * (w.toNat * X)) • G') := by
      rw [add_nsmul]
      exact add_bridge hp2 hΔ hP1rel (hP1facts.2 hgred) hP2rel (hP2facts.2 hpbred) hP3
    /- the scalar is congruent to the nonce mod n -/
    have hwZ : (((ni * ((hashToNat hash : Int) + ((k : Nat) : Int) * ((X : Nat) : Int)))
        % ((c.n : Nat) : Int) : Int) : ZMod c.n) * ((w : Int) : ZMod c.n) = 1 := by
      have hcast : (((ni * ((hashToNat hash : Int) + ((k : Nat) : Int) * ((X : Nat) : Int)))
          % ((c.n : Nat) : Int) * w : Int) : ZMod c.n) = (((1 : Int)) : ZMod c.n) := by
        rw [ZMod.intCast_eq_intCast_iff', hwinv, hq1]
      rw [Int.cast_mul, Int.cast_one] at hcast
      exact hcast
    have hniZ : ((z : Nat) : ZMod c.n) * ((ni : Int) : ZMod c.n) = 1 := by
      have hcast : ((((z : Nat) : Int) * ni : Int) : ZMod c.n) = (((1 : Int)) : ZMod c.n) := by
        rw [ZMod.intCast_eq_intCast_iff', hniinv, hq1]
      rw [Int.cast_mul, Int.cast_one, Int.cast_natCast] at hcast
      exact hcast
    have hEZ : (((ni * ((hashToNat hash : Int) + ((k : Nat) : Int) * ((X : Nat) : Int)))
        % ((c.n : Nat) : Int) : Int) : ZMod c.n)
        = ((ni : Int) : ZMod c.n) * (((hashToNat hash : Nat) : ZMod c.n)
          + ((k : Nat) : ZMod c.n) * ((X : Nat) : ZMod c.n)) := by
      rw [intCast_emod_zmod]
      push_cast
      ring
    have hscal : ((hashToNat hash * w.toNat + k * (w.toNat * X) : Nat) : ZMod c.n)
        = ((z : Nat) : ZMod c.n) := by
      push_cast
      rw [natCast_toNat_zmod hw0 c.n]
      linear_combination
        (-(((w : Int) : ZMod c.n) * (((hashToNat hash : Nat) : ZMod c.n)
          + ((k : Nat) : ZMod c.n) * ((X : Nat) : ZMod c.n)))) * hniZ
        + ((z : Nat) : ZMod c.n) * hwZ
        + (-(((z : Nat) : ZMod c.n) * ((w : Int) : ZMod c.n))) * hEZ
    have hsmul : (hashToNat hash * w.toNat + k * (w.toNat * X)) • G' = z • G' :=
      nsmul_eq_of_cast_eq hordG hscal
    rw [hsmul] at hP3rel
    have hP3eq : P3 = Point.point X Y :=
      PtRel_inj hpne hP3rel hzgrel ((add_ok_on_curve hP3).2 (hP1facts.2 hgred)
        (hP2facts.2 hpbred)) hzgred rfl
    rw [hP3eq]
    simp [Point.get_x]

/-- Witness for C1 (amended) on the toy curve: key pair `(1, G)`, nonce
`z = 1`, message `"abc"`; sign produces `(r, s) = (3, 3)` and verify accepts. -/
theorem C1_sign_then_verify_amended_witness :
    Signature.verify ⟨3, 3, toy, Point.point 3 6⟩ "abc" InputType.Text =
      Except.ok true :=
  C1_sign_then_verify_amended toy 1 1 3 6 toyKp "abc" InputType.Text
    ⟨"ba7816bf8f01cfea414140de5dae2223b00361a396177a9cb410ff61f20015ad"⟩
    ⟨3, 3, toy, Point.point 3 6⟩
    (by rw [show toy.p = 97 from rfl]; norm_num)
    (by decide)
    (by rw [show toy.n = 5 from rfl]; norm_num)
    (by rw [Int.dvd_iff_emod_eq_zero]; decide)
    (by decide)
    (by exact ⟨by decide, by decide⟩)
    (by decide)
    (by decide)
    (by decide) (by decide)
    (by decide)
    (by decide)
    (by decide)
    (by decide)
    (by decide)

end Spec2Proof
